import Mathlib

/-!
Verification of the exam-generation core (`question_generator.py`,
`text_processor.py`) of the Exam-gen repository.

Python strings are modelled as `List Char` (`PyStr`); Python's seeded
`random.Random` object is modelled as a stream of natural numbers that every
primitive draw consumes from the front, and the module-level global `random`
used by `random.choices` inside `weighted_sample` is modelled as a separate
stream of rationals (the values of `random()`).  Fallible library calls
(`random.choices` raising `IndexError`/`ValueError`) are modelled with
`Option`.
-/

/-- A Python `str`, modelled as its list of characters. -/
abbrev PyStr := List Char

/-- Shorthand turning a Lean string literal into the `PyStr` model. -/
def strToP (s : String) : PyStr := s.toList

/-- The whitespace characters recognised by Python's `\s` regex class /
`str.isspace` (the source's `WHITESPACE_RE` is `[　\s]+`; `　`,
the full-width space, is already in the class). -/
def pyWsChars : List Char :=
  [' ', '\t', '\n', '\r', '\x0b', '\x0c',
   '\x1c', '\x1d', '\x1e', '\x1f', '\x85', '\xa0',
   '\u1680', '\u2000', '\u2001', '\u2002', '\u2003', '\u2004', '\u2005',
   '\u2006', '\u2007', '\u2008', '\u2009', '\u200a',
   '\u2028', '\u2029', '\u202f', '\u205f', '\u3000']

/-- Whitespace test for the model (`WHITESPACE_RE` character class). -/
def isPyWS (c : Char) : Bool := c ∈ pyWsChars

/-- ASCII decimal digit, the model of the regex class `\d`
(the model restricts `\d` to its ASCII part). -/
def isDig (c : Char) : Bool := '0' ≤ c && c ≤ '9'

/-- `WHITESPACE_RE.sub(" ", text)`: replace every maximal run of whitespace
by a single ASCII space.  The flag records whether the previous character
belonged to a whitespace run (in which case further run characters are
dropped). -/
def collapseWS : Bool → PyStr → PyStr
  | _, [] => []
  | prevWs, c :: rest =>
    if isPyWS c then
      if prevWs then collapseWS true rest
      else ' ' :: collapseWS true rest
    else c :: collapseWS false rest

/-- `text.replace(" ", " ")`: replace every no-break space. -/
def replaceNbsp (s : PyStr) : PyStr :=
  s.map (fun c => if c = '\xa0' then ' ' else c)

/-- `str.strip()`: drop whitespace from both ends. -/
def pyStrip (s : PyStr) : PyStr :=
  ((s.dropWhile isPyWS).reverse.dropWhile isPyWS).reverse

/-- `text_processor.normalize_text`. -/
def normalize_text (s : PyStr) : PyStr :=
  pyStrip (replaceNbsp (collapseWS false s))

/-- The sentence-terminal characters of the source's split pattern
`(?<=[。；！？!?])`. -/
def isTerm (c : Char) : Bool :=
  c ∈ ['。', '；', '！', '？', '!', '?']

/-- `re.split(r"(?<=[。；！？!?])", text)`: cut the string right after every
terminal character, keeping the terminals.  `cur` accumulates the current
part in reverse. -/
def splitAfterTerm (cur : PyStr) : PyStr → List PyStr
  | [] => [cur.reverse]
  | c :: rest =>
    if isTerm c then (cur.reverse ++ [c]) :: splitAfterTerm [] rest
    else splitAfterTerm (c :: cur) rest

/-- `text_processor.split_sentences`: split after terminals, strip each part,
drop empty parts. -/
def split_sentences (s : PyStr) : List PyStr :=
  ((splitAfterTerm [] s).map pyStrip).filter (fun p => p ≠ [])

/-- `NUMBER_RE.findall(norm)`: the maximal digit runs, in order.  `cur`
accumulates the current run in reverse. -/
def numberRuns (cur : PyStr) : PyStr → List PyStr
  | [] => if cur = [] then [] else [cur.reverse]
  | c :: rest =>
    if isDig c then numberRuns (c :: cur) rest
    else if cur = [] then numberRuns [] rest
    else cur.reverse :: numberRuns [] rest

/-- Try to match the source's `DATE_RE` pattern
`(\d{4})年(\d{1,2})月(\d{1,2})日` at the head of `s`; on success return the
matched text (which equals the reassembled `"{}年{}月{}日"`) and the rest. -/
def tryDate (s : PyStr) : Option (PyStr × PyStr) :=
  let y := s.takeWhile isDig
  if y.length < 4 then none else
  let y4 := y.take 4
  match s.drop 4 with
  | '年' :: r1 =>
    let m := r1.takeWhile isDig
    let tryM := fun (mlen : Nat) =>
      match r1.drop mlen with
      | '月' :: r2 =>
        let d := r2.takeWhile isDig
        let tryD := fun (dlen : Nat) =>
          match r2.drop dlen with
          | '日' :: r3 =>
            some (y4 ++ '年' :: m.take mlen ++ '月' :: d.take dlen ++ ['日'], r3)
          | _ => none
        if 2 ≤ d.length then
          match tryD 2 with
          | some v => some v
          | none => if 1 ≤ d.length then tryD 1 else none
        else if 1 ≤ d.length then tryD 1 else none
      | _ => none
    if 2 ≤ m.length then
      match tryM 2 with
      | some v => some v
      | none => if 1 ≤ m.length then tryM 1 else none
    else if 1 ≤ m.length then tryM 1 else none
  | _ => none

/-- `DATE_RE.findall` scan (fuelled by the string length; each match consumes
at least one character, so the fuel never runs out). -/
def datesGo : Nat → PyStr → List PyStr
  | 0, _ => []
  | _ + 1, [] => []
  | fuel + 1, c :: rest =>
    match tryDate (c :: rest) with
    | some (d, after) => d :: datesGo fuel after
    | none => datesGo fuel rest

/-- All date matches of `DATE_RE` in `s`, reassembled as in the source. -/
def dateRuns (s : PyStr) : List PyStr := datesGo s.length s

/-- The source's fixed `KEY_TERMS` vocabulary. -/
def KEY_TERMS : List PyStr :=
  [strToP "不得", strToP "应当", strToP "可以", strToP "必须", strToP "禁止",
   strToP "批准", strToP "备案", strToP "罚款", strToP "责任", strToP "义务"]

/-- Is `pat` a prefix of `s`? (Python slice comparison used by `in`.) -/
def isPre : PyStr → PyStr → Bool
  | [], _ => true
  | _ :: _, [] => false
  | a :: as_, b :: bs => a = b && isPre as_ bs

/-- Python's substring test `pat in s`. -/
def containsSub : PyStr → PyStr → Bool
  | s, pat =>
    isPre pat s ||
      match s with
      | [] => false
      | _ :: rest => containsSub rest pat

/-- The entity bundle produced by `text_processor.extract_entities`. -/
structure EntityBundle where
  numbers : List PyStr
  dates : List PyStr
  terms : List PyStr
  nouns : List PyStr
  sentences : List PyStr
deriving DecidableEq, Repr

/-- `text_processor.extract_entities`.  The `nouns` component models the
spaCy-unavailable fallback of the source (`_SPACY_AVAILABLE = False`), in
which `nouns` is always the empty list; no claim below depends on the noun
heuristic. -/
def extract_entities (text : PyStr) : EntityBundle :=
  let norm := normalize_text text
  { numbers := numberRuns [] norm
    dates := dateRuns norm
    terms := KEY_TERMS.filter (fun t => containsSub norm t)
    nouns := []
    sentences := split_sentences norm }

/-- Engine of `dedupFirst`: drop elements already seen. -/
def dedupFirstGo [DecidableEq α] (seen : List α) : List α → List α
  | [] => []
  | x :: rest =>
    if x ∈ seen then dedupFirstGo seen rest
    else x :: dedupFirstGo (x :: seen) rest

/-- Deduplicate keeping the first occurrence (`dict.fromkeys`). -/
def dedupFirst [DecidableEq α] (l : List α) : List α := dedupFirstGo [] l

/-- `text_processor.pick_keywords`: `terms ++ nouns`, deduplicated keeping
first occurrence, truncated to `max_k`. -/
def pick_keywords (e : EntityBundle) (maxK : Nat) : List PyStr :=
  (dedupFirst (e.terms ++ e.nouns)).take maxK

/-- An Article record as produced by `docx_parser` (dict with the five keys
`source_file`, `article_no`, `title`, `text`, `clauses`). -/
structure Article where
  source_file : PyStr
  article_no : PyStr
  title : PyStr
  text : PyStr
  clauses : List PyStr
deriving DecidableEq, Repr

instance : Inhabited Article := ⟨⟨[], [], [], [], []⟩⟩

/-- The `answer` field of a question dict (`Union[str, List[str]]`). -/
inductive PyAnswer where
  | s (v : PyStr)
  | l (v : List PyStr)
deriving DecidableEq, Repr

/-- A question dict of `question_generator`. -/
structure Question where
  qtype : PyStr
  question : PyStr
  options : Option (List PyStr)
  answer : PyAnswer
  source_file : PyStr
  source_article : PyStr
deriving DecidableEq, Repr

instance : Inhabited Question := ⟨⟨[], [], none, .s [], [], []⟩⟩

/-- State of the seeded `random.Random` object passed through the call chain:
a stream of naturals, one consumed per primitive draw.  The claims below are
proved for every stream, hence for every behaviour of the Mersenne-Twister
generator. -/
abbrev RSt := List Nat

/-- Consume one natural from the seeded source. -/
def drawNat (st : RSt) : Nat × RSt := (st.headD 0, st.tail)

/-- `rng.random() < 0.5`: one Boolean draw. -/
def pyCoin (st : RSt) : Bool × RSt :=
  let (h, st') := drawNat st
  (h % 2 = 1, st')

/-- `rng.randint(a, b)` (both ends inclusive). -/
def pyRandint (a b : Nat) (st : RSt) : Nat × RSt :=
  let (h, st') := drawNat st
  (a + h % (b - a + 1), st')

/-- `rng.choice(seq)`.  The source only calls it on sequences it has checked
to be non-empty; on the (unreachable) empty list the model returns the
default. -/
def pyChoice [Inhabited α] (l : List α) (st : RSt) : α × RSt :=
  let (h, st') := drawNat st
  (l.getD (h % l.length) default, st')

/-- One selection step of the shuffle/sample models: draw an index into the
remaining pool, return the element and the pool without it. -/
def pickIdx [Inhabited α] (l : List α) (st : RSt) : α × List α × RSt :=
  let (h, st') := drawNat st
  let i := h % l.length
  (l.getD i default, l.eraseIdx i, st')

/-- The selection step always shrinks the pool. -/
theorem pickIdx_length_lt [Inhabited α] (x : α) (l : List α) (st : RSt) :
    (pickIdx (x :: l) st).2.1.length < (x :: l).length := by
  have hlt : (st.headD 0) % (x :: l).length < (x :: l).length :=
    Nat.mod_lt _ (by simp)
  simp only [pickIdx, drawNat]
  rw [List.length_eraseIdx_of_lt hlt]
  simp

/-- Engine of `pyShuffle`: repeatedly draw one of the remaining elements.
The fuel argument (initially the pool size, enough for the whole pool)
makes the recursion structural. -/
def shuffleGo [Inhabited α] : Nat → List α → List α → RSt → List α × RSt
  | 0, _, acc, st => (acc.reverse, st)
  | fuel + 1, rem, acc, st =>
    match rem with
    | [] => (acc.reverse, st)
    | c :: rest =>
      let p := pickIdx (c :: rest) st
      shuffleGo fuel p.2.1 (p.1 :: acc) p.2.2

/-- `rng.shuffle(x)`: the model draws a permutation of the list by sequential
index draws; every claim below depends only on the result being a
permutation of the input. -/
def pyShuffle [Inhabited α] (l : List α) (st : RSt) : List α × RSt :=
  shuffleGo l.length l [] st

/-- Engine of `pySample`. -/
def sampleGo [Inhabited α] (k : Nat) (rem acc : List α) (st : RSt) :
    List α × RSt :=
  match k with
  | 0 => (acc.reverse, st)
  | k' + 1 =>
    match rem with
    | [] => (acc.reverse, st)
    | _ :: _ =>
      let (x, rem', st') := pickIdx rem st
      sampleGo k' rem' (x :: acc) st'

/-- `rng.sample(pop, k)`: `k` distinct positions of `pop`, drawn without
replacement, in draw order.  The source only calls it with `k ≤ len(pop)`. -/
def pySample [Inhabited α] (l : List α) (k : Nat) (st : RSt) :
    List α × RSt :=
  sampleGo k l [] st

/-- State of the module-level global `random` used by `random.choices` in
`weighted_sample`: a stream of rationals, the successive values of
`random()` (each in `[0, 1)`). -/
abbrev GSt := List ℚ

/-- Consume one `random()` value from the global source. -/
def drawGlobal (g : GSt) : ℚ × GSt := (g.headD 0, g.tail)

/-- Running sums of a weight list (`itertools.accumulate`). -/
def cumsum (acc : ℚ) : List ℚ → List ℚ
  | [] => []
  | w :: rest => (acc + w) :: cumsum (acc + w) rest

/-- `bisect.bisect(cw, u, 0, hi)` for a nondecreasing `cw`: the first index
whose cumulative weight exceeds `u`, capped at `hi`.  (The source's weight
lists are constant-per-class nonnegative config floats, for which the
linear scan agrees with the library bisection.) -/
def bisectIdx (cw : List ℚ) (u : ℚ) (hi : Nat) : Nat :=
  min (cw.findIdx (fun c => u < c)) hi

/-- The `k` draws of `random.choices`: each consumes one `random()` value `r`
and selects `population[bisect(cum_weights, r * total, 0, n - 1)]`. -/
def choicesGo [Inhabited α] (pop : List α) (cw : List ℚ) (total : ℚ)
    (hi : Nat) : Nat → GSt → List α × GSt
  | 0, g => ([], g)
  | k + 1, g =>
    let (r, g') := drawGlobal g
    let i := bisectIdx cw (r * total) hi
    let (rest, g'') := choicesGo pop cw total hi k g'
    (pop.getD i default :: rest, g'')

/-- `random.choices(population, weights=w, k=k)`.  Mirrors the CPython
implementation including its failure modes: on an empty population the
access `cum_weights[-1]` raises `IndexError` (even for `k = 0`), and a
non-positive weight total raises `ValueError`; both are modelled as
`none`. -/
def pyChoicesW [Inhabited α] (pop : List α) (w : List ℚ) (k : Nat)
    (g : GSt) : Option (List α × GSt) :=
  if pop.length ≠ w.length then none
  else
    match pop with
    | [] => none
    | _ :: _ =>
      let cw := cumsum 0 w
      let total := cw.getLastD 0
      if total ≤ 0 then none
      else some (choicesGo pop cw total (pop.length - 1) k g)

/-- The sampling-weights part of the config
(`weights: {important_articles, important_weight, default}`). -/
structure Weights where
  important_articles : List PyStr
  important_weight : ℚ
  default_weight : ℚ
deriving DecidableEq, Repr

/-- The per-type question counts of the config. -/
structure Counts where
  true_false : Nat
  single_choice : Nat
  multiple_choice : Nat
  fill_blank : Nat
  short_answer : Nat
deriving DecidableEq, Repr

/-- The parts of the config read by `assemble_exam` (every key lookup in the
source has a default, so the record is total). -/
structure Config where
  counts : Counts
  weights : Weights
deriving DecidableEq, Repr

/-- The per-article weight list built by `weighted_sample`:
`important_weight` for articles whose `article_no` is in the important set,
`default` otherwise. -/
def articleWeights (articles : List Article) (w : Weights) : List ℚ :=
  articles.map (fun a =>
    if a.article_no ∈ w.important_articles then w.important_weight
    else w.default_weight)

/-- `question_generator.weighted_sample`: sample
`min(k, max(1, len(articles)))` article indices with replacement from the
weighted distribution, using the module-level global `random`. -/
def weighted_sample (articles : List Article) (w : Weights) (k : Nat)
    (g : GSt) : Option (List Article × GSt) :=
  let weights := articleWeights articles w
  let population := List.range articles.length
  match pyChoicesW population weights
      (min k (max 1 population.length)) g with
  | none => none
  | some (idxs, g') => some (idxs.map (fun i => articles.getD i default), g')

/-- Split `s` at the first occurrence of `pat`: `some (pre, post)` with
`s = pre ++ pat ++ post` and `pre` shortest possible, or `none` when `pat`
does not occur. -/
def firstOccSplit : PyStr → PyStr → Option (PyStr × PyStr)
  | s, pat =>
    if isPre pat s then some ([], s.drop pat.length)
    else
      match s with
      | [] => none
      | c :: rest =>
        (firstOccSplit rest pat).map (fun pr => (c :: pr.1, pr.2))

/-- Python `s.replace(a, b, 1)`: replace the first occurrence of `a` by `b`
(identity when `a` does not occur). -/
def replaceFirst (s a b : PyStr) : PyStr :=
  match firstOccSplit s a with
  | none => s
  | some (pre, post) => pre ++ b ++ post

/-- The digit characters of `str(n)` (canonical decimal, no leading
zeros). -/
def natRepr (n : Nat) : PyStr :=
  if n = 0 then ['0'] else ((Nat.digits 10 n).map
    (fun d => Char.ofNat (48 + d))).reverse

/-- `int(run)` for a string of ASCII digits. -/
def digitsVal (cs : PyStr) : Nat :=
  cs.foldl (fun acc c => 10 * acc + (c.toNat - 48)) 0

/-- `re.search(r"\d+", s)`: split at the first maximal digit run, returning
`(prefix, run, suffix)`. -/
def findDigitRun : PyStr → Option (PyStr × PyStr × PyStr)
  | [] => none
  | c :: rest =>
    if isDig c then some ([], c :: rest.takeWhile isDig, rest.dropWhile isDig)
    else (findDigitRun rest).map (fun t => (c :: t.1, t.2.1, t.2.2))

/-- The ordered modal-substitution table of `negate_statement`. -/
def pySwaps : List (PyStr × PyStr) :=
  [(strToP "应当", strToP "不得"), (strToP "必须", strToP "可以"),
   (strToP "可以", strToP "不得"), (strToP "不得", strToP "可以"),
   (strToP "禁止", strToP "允许")]

/-- The literal disclaimer suffix of `negate_statement`. -/
def disclaimer : PyStr := strToP "（本句可能为错误陈述）"

/-- `question_generator.negate_statement`: first matching modal swap
(replace first occurrence only), else increment the first digit run, else
append the disclaimer. -/
def negate_statement (s : PyStr) : PyStr :=
  match pySwaps.find? (fun p => containsSub s p.1) with
  | some (a, b) => replaceFirst s a b
  | none =>
    match findDigitRun s with
    | some (pre, run, post) => pre ++ natRepr (digitsVal run + 1) ++ post
    | none => s ++ disclaimer

/-- The fixed option pair of true/false questions. -/
def tfOptions : List PyStr := [strToP "对", strToP "错"]

/-- One true/false question record. -/
def tfRecord (art : Article) (q : PyStr) (flip : Bool) : Question :=
  { qtype := strToP "true_false"
    question := q
    options := some tfOptions
    answer := .s (if flip then strToP "错" else strToP "对")
    source_file := art.source_file
    source_article := art.article_no }

/-- Inner sentence loop of `make_true_false` (state: emitted questions,
dedup set `seen`, rng). -/
def tfInner (count : Nat) (art : Article) :
    List PyStr → List Question × List PyStr × RSt →
      List Question × List PyStr × RSt
  | [], acc => acc
  | s :: rest, (res, seen, st) =>
    if count ≤ res.length then (res, seen, st)
    else if s ∈ seen ∨ s.length < 6 then
      tfInner count art rest (res, seen, st)
    else
      let (flip, st') := pyCoin st
      let q := if flip then negate_statement s else s
      tfInner count art rest (res ++ [tfRecord art q flip], s :: seen, st')

/-- Outer article loop of `make_true_false`. -/
def tfOuter (count : Nat) :
    List Article → List Question × List PyStr × RSt →
      List Question × List PyStr × RSt
  | [], acc => acc
  | art :: arts, acc =>
    let acc' := tfInner count art (extract_entities art.text).sentences acc
    if count ≤ acc'.1.length then acc' else tfOuter count arts acc'

/-- `question_generator.make_true_false`.  Besides the question list the
model returns the final rng state, since the mutable `rng` object continues
into the next generator inside `assemble_exam`. -/
def make_true_false (arts : List Article) (count : Nat) (st : RSt) :
    List Question × RSt :=
  let (res, _, st') := tfOuter count arts ([], [], st)
  (res, st')

/-- Ghost instrumentation of `tfInner` used to state the dedup claim: the
same loop, additionally pairing every emitted question with the pre-negation
source sentence it derives from.  The control flow is identical to
`tfInner`. -/
def tfInnerAnn (count : Nat) (art : Article) :
    List PyStr → List (PyStr × Question) × List PyStr × RSt →
      List (PyStr × Question) × List PyStr × RSt
  | [], acc => acc
  | s :: rest, (res, seen, st) =>
    if count ≤ res.length then (res, seen, st)
    else if s ∈ seen ∨ s.length < 6 then
      tfInnerAnn count art rest (res, seen, st)
    else
      let (flip, st') := pyCoin st
      let q := if flip then negate_statement s else s
      tfInnerAnn count art rest
        (res ++ [(s, tfRecord art q flip)], s :: seen, st')

/-- Ghost instrumentation of `tfOuter`. -/
def tfOuterAnn (count : Nat) :
    List Article → List (PyStr × Question) × List PyStr × RSt →
      List (PyStr × Question) × List PyStr × RSt
  | [], acc => acc
  | art :: arts, acc =>
    let acc' := tfInnerAnn count art (extract_entities art.text).sentences acc
    if count ≤ acc'.1.length then acc' else tfOuterAnn count arts acc'

/-- Ghost instrumentation of `make_true_false` (questions paired with their
pre-negation source sentences). -/
def make_true_false_ann (arts : List Article) (count : Nat) (st : RSt) :
    List (PyStr × Question) :=
  (tfOuterAnn count arts ([], [], st)).1

/-- The correct-option string of `make_single_choice`:
`f"关于“{key}”的表述符合该法条"`. -/
def scCorrect (key : PyStr) : PyStr :=
  strToP "关于“" ++ key ++ strToP "”的表述符合该法条"

/-- A distractor-pool entry: `f"关于“{kw}”的表述不符合该法条"`. -/
def poolEntry (kw : PyStr) : PyStr :=
  strToP "关于“" ++ kw ++ strToP "”的表述不符合该法条"

/-- `question_generator.build_distractor_pool`. -/
def build_distractor_pool (arts : List Article) : List PyStr :=
  dedupFirst (arts.flatMap (fun art =>
    (pick_keywords (extract_entities art.text) 4).map poolEntry))

/-- `question_generator.sample_distractors`. -/
def sample_distractors (pool : List PyStr) (key : PyStr) (n : Nat)
    (st : RSt) : List PyStr × RSt :=
  let candidates := pool.filter (fun p => ¬ containsSub p key)
  let candidates := if candidates.length < n then pool else candidates
  pySample candidates (min n candidates.length) st

/-- The stem of a choice question: a random sentence, or the first 50
characters of the article text when there are no sentences (the random
draw happens only in the first case, as in the Python conditional
expression). -/
def chooseStem (e : EntityBundle) (art : Article) (st : RSt) :
    PyStr × RSt :=
  if e.sentences ≠ [] then pyChoice e.sentences st
  else (art.text.take 50, st)

/-- Loop of `make_single_choice` (state: emitted questions, `seen_q` dedup
set, rng). -/
def scGo (count : Nat) (pool : List PyStr) :
    List Article → List Question × List PyStr × RSt →
      List Question × List PyStr × RSt
  | [], acc => acc
  | art :: arts, (res, seenQ, st) =>
    if count ≤ res.length then (res, seenQ, st)
    else
      let e := extract_entities art.text
      let kws := pick_keywords e 5
      if kws = [] then scGo count pool arts (res, seenQ, st)
      else
        let stem := (chooseStem e art st).1
        let st1 := (chooseStem e art st).2
        let key := (pyChoice kws st1).1
        let st2 := (pyChoice kws st1).2
        let correct := scCorrect key
        let distractors := (sample_distractors pool key 3 st2).1
        let st3 := (sample_distractors pool key 3 st2).2
        let options := correct :: distractors
        let options' := (pyShuffle options st3).1
        let st4 := (pyShuffle options st3).2
        let ans := options'.indexOf correct
        let qtext := strToP "依据" ++ art.article_no ++
          strToP "，下列哪一项是正确的？\n" ++ stem
        if qtext ∈ seenQ then scGo count pool arts (res, seenQ, st4)
        else
          scGo count pool arts
            (res ++ [{ qtype := strToP "single"
                       question := qtext
                       options := some options'
                       answer := .s [Char.ofNat (65 + ans)]
                       source_file := art.source_file
                       source_article := art.article_no }],
             qtext :: seenQ, st4)

/-- `question_generator.make_single_choice`. -/
def make_single_choice (arts : List Article) (count : Nat) (st : RSt) :
    List Question × RSt :=
  let pool := build_distractor_pool arts
  let (res, _, st') := scGo count pool arts ([], [], st)
  (res, st')

/-- A correct option of `make_multiple_choice`:
`f"与“{kw}”相关的规定符合该法条"`. -/
def mcCorrect (kw : PyStr) : PyStr :=
  strToP "与“" ++ kw ++ strToP "”相关的规定符合该法条"

/-- The answer letters of `make_multiple_choice`: one letter per shuffled
position whose option text is in the correct set. -/
def mcLetters (options correct : List PyStr) : List PyStr :=
  (options.enum.filter (fun p => p.2 ∈ correct)).map
    (fun p => [Char.ofNat (65 + p.1)])

/-- Loop of `make_multiple_choice`. -/
def mcGo (count : Nat) (pool : List PyStr) :
    List Article → List Question × RSt → List Question × RSt
  | [], acc => acc
  | art :: arts, (res, st) =>
    if count ≤ res.length then (res, st)
    else
      let e := extract_entities art.text
      let kws := pick_keywords e 6
      if kws.length < 2 then mcGo count pool arts (res, st)
      else
        let stem := (chooseStem e art st).1
        let st1 := (chooseStem e art st).2
        let numCorrect := (pyRandint 2 (min 4 kws.length) st1).1
        let st2 := (pyRandint 2 (min 4 kws.length) st1).2
        let chosen := (pySample kws numCorrect st2).1
        let st3 := (pySample kws numCorrect st2).2
        let correct := chosen.map mcCorrect
        let distractors :=
          (sample_distractors pool (List.intercalate ['|'] kws)
            (5 - numCorrect) st3).1
        let st4 :=
          (sample_distractors pool (List.intercalate ['|'] kws)
            (5 - numCorrect) st3).2
        let options := correct ++ distractors
        let options' := (pyShuffle options st4).1
        let st5 := (pyShuffle options st4).2
        let ansLetters := mcLetters options' correct
        let qtext := strToP "依据" ++ art.article_no ++
          strToP "，下列哪些项是正确的？\n" ++ stem
        mcGo count pool arts
          (res ++ [{ qtype := strToP "multiple"
                     question := qtext
                     options := some options'
                     answer := .l ansLetters
                     source_file := art.source_file
                     source_article := art.article_no }], st5)

/-- `question_generator.make_multiple_choice`. -/
def make_multiple_choice (arts : List Article) (count : Nat) (st : RSt) :
    List Question × RSt :=
  let pool := build_distractor_pool arts
  mcGo count pool arts ([], st)

/-- The blank marker inserted by `make_fill_blank`
(`"\\rule{2cm}{0.4pt}"`). -/
def fbMarker : PyStr := strToP "\\rule\x7b2cm\x7d\x7b0.4pt\x7d"

/-- Loop of `make_fill_blank`. -/
def fbGo (count : Nat) :
    List Article → List Question × RSt → List Question × RSt
  | [], acc => acc
  | art :: arts, (res, st) =>
    if count ≤ res.length then (res, st)
    else
      let e := extract_entities art.text
      let candidates := e.terms ++ e.numbers
      if candidates = [] then fbGo count arts (res, st)
      else
        let target := (pyChoice candidates st).1
        let st1 := (pyChoice candidates st).2
        let sent :=
          if e.sentences ≠ [] then (pyChoice e.sentences st1).1
          else art.text
        let st2 :=
          if e.sentences ≠ [] then (pyChoice e.sentences st1).2
          else st1
        let sent := if ¬ containsSub sent target then art.text else sent
        let blanked := replaceFirst sent target fbMarker
        fbGo count arts
          (res ++ [{ qtype := strToP "fill"
                     question := blanked
                     options := none
                     answer := .s target
                     source_file := art.source_file
                     source_article := art.article_no }], st2)

/-- `question_generator.make_fill_blank`. -/
def make_fill_blank (arts : List Article) (count : Nat) (st : RSt) :
    List Question × RSt :=
  fbGo count arts ([], st)

/-- Loop of `make_short_answers` (state: emitted questions and the `taken`
set of used article numbers). -/
def saGo (count : Nat) :
    List Article → List Question × List PyStr → List Question × List PyStr
  | [], acc => acc
  | art :: arts, (res, taken) =>
    if count ≤ res.length then (res, taken)
    else if art.article_no ∈ taken then saGo count arts (res, taken)
    else
      saGo count arts
        (res ++ [{ qtype := strToP "short"
                   question := strToP "简述" ++ art.article_no ++
                     strToP "的主要内容或立法目的。"
                   options := none
                   answer := .s art.text
                   source_file := art.source_file
                   source_article := art.article_no }],
         art.article_no :: taken)

/-- `question_generator.make_short_answers`. -/
def make_short_answers (arts : List Article) (count : Nat) :
    List Question :=
  (saGo count arts ([], [])).1

/-- The Exam mapping (`type key → question list`). -/
structure Exam where
  true_false : List Question
  single : List Question
  multiple : List Question
  fill : List Question
  short : List Question
deriving DecidableEq, Repr

/-- `question_generator.assemble_exam`.  The four `weighted_sample` calls
consume from the module-level global source `g`; the five generators consume
from the seeded object `rng` (modelled by `st`).  The result is `none`
exactly when one of the `random.choices` calls raises. -/
def assemble_exam (articles : List Article) (cfg : Config) (g : GSt)
    (st : RSt) : Option Exam :=
  match weighted_sample articles cfg.weights (cfg.counts.true_false * 2) g with
  | none => none
  | some (tfArts, g1) =>
  match weighted_sample articles cfg.weights
      (cfg.counts.single_choice * 2) g1 with
  | none => none
  | some (scArts, g2) =>
  match weighted_sample articles cfg.weights
      (cfg.counts.multiple_choice * 2) g2 with
  | none => none
  | some (mcArts, g3) =>
  match weighted_sample articles cfg.weights
      (cfg.counts.fill_blank * 2) g3 with
  | none => none
  | some (fbArts, _) =>
    let shortImportant := articles.filter
      (fun a => a.article_no ∈ cfg.weights.important_articles)
    let shortImportant :=
      if shortImportant.length < cfg.counts.short_answer then
        (shortImportant ++ articles).take cfg.counts.short_answer
      else shortImportant
    let (tfQ, st1) := make_true_false tfArts cfg.counts.true_false st
    let (scQ, st2) := make_single_choice scArts cfg.counts.single_choice st1
    let (mcQ, st3) := make_multiple_choice mcArts cfg.counts.multiple_choice st2
    let (fbQ, _) := make_fill_blank fbArts cfg.counts.fill_blank st3
    some { true_false := tfQ
           single := scQ
           multiple := mcQ
           fill := fbQ
           short := make_short_answers shortImportant cfg.counts.short_answer }

/-! ### Basic lemmas about the string primitives -/

theorem isPre_iff (pat s : PyStr) :
    isPre pat s = true ↔ ∃ t, s = pat ++ t := by
  induction pat generalizing s with
  | nil => simp [isPre]
  | cons a as ih =>
    cases s with
    | nil => simp [isPre]
    | cons b bs =>
      simp only [isPre, Bool.and_eq_true, decide_eq_true_eq, ih]
      constructor
      · rintro ⟨rfl, t, rfl⟩; exact ⟨t, rfl⟩
      · rintro ⟨t, ht⟩
        cases ht
        exact ⟨rfl, t, rfl⟩

theorem isPre_append (pat t : PyStr) : isPre pat (pat ++ t) = true :=
  (isPre_iff pat (pat ++ t)).mpr ⟨t, rfl⟩

theorem containsSub_nil (pat : PyStr) : containsSub [] pat = isPre pat [] := by
  simp [containsSub]

theorem containsSub_cons (c : Char) (rest pat : PyStr) :
    containsSub (c :: rest) pat =
      (isPre pat (c :: rest) || containsSub rest pat) := by
  conv_lhs => rw [containsSub]

theorem containsSub_iff (s pat : PyStr) :
    containsSub s pat = true ↔ ∃ pre post, s = pre ++ pat ++ post := by
  induction s with
  | nil =>
    rw [containsSub_nil, isPre_iff]
    constructor
    · rintro ⟨t, ht⟩; exact ⟨[], t, by simpa using ht⟩
    · rintro ⟨pre, post, h⟩
      rcases List.append_eq_nil.mp h.symm with ⟨h1, h2⟩
      rcases List.append_eq_nil.mp h1 with ⟨rfl, rfl⟩
      exact ⟨[], by simp⟩
  | cons c rest ih =>
    rw [containsSub_cons, Bool.or_eq_true, isPre_iff, ih]
    constructor
    · rintro (⟨t, ht⟩ | ⟨pre, post, h⟩)
      · exact ⟨[], t, by simpa using ht⟩
      · exact ⟨c :: pre, post, by simp [h]⟩
    · rintro ⟨pre, post, h⟩
      cases pre with
      | nil => exact Or.inl ⟨post, by simpa using h⟩
      | cons d pre' =>
        right
        refine ⟨pre', post, ?_⟩
        simpa using congrArg List.tail h

/-- A substring of a larger context is still a substring. -/
theorem containsSub_of_infix (u v s pat : PyStr)
    (h : containsSub s pat = true) :
    containsSub (u ++ s ++ v) pat = true := by
  rcases (containsSub_iff s pat).mp h with ⟨pre, post, rfl⟩
  exact (containsSub_iff _ pat).mpr ⟨u ++ pre, post ++ v, by simp⟩

theorem containsSub_self (s : PyStr) : containsSub s s = true :=
  (containsSub_iff s s).mpr ⟨[], [], by simp⟩

theorem firstOccSplit_nil (pat : PyStr) :
    firstOccSplit [] pat =
      (if isPre pat [] then some (([] : PyStr), ([] : PyStr)) else none) := by
  simp [firstOccSplit]

theorem firstOccSplit_cons (c : Char) (rest pat : PyStr) :
    firstOccSplit (c :: rest) pat =
      (if isPre pat (c :: rest) then
        some ([], (c :: rest).drop pat.length)
      else (firstOccSplit rest pat).map (fun pr => (c :: pr.1, pr.2))) := by
  conv_lhs => rw [firstOccSplit]

theorem firstOccSplit_sound (s pat pre post : PyStr)
    (h : firstOccSplit s pat = some (pre, post)) :
    s = pre ++ pat ++ post := by
  induction s generalizing pre with
  | nil =>
    rw [firstOccSplit_nil] at h
    by_cases hp : isPre pat [] = true
    · rcases (isPre_iff _ _).mp hp with ⟨t, ht⟩
      rcases List.append_eq_nil.mp ht.symm with ⟨rfl, rfl⟩
      rw [if_pos hp] at h
      simp only [Option.some.injEq, Prod.mk.injEq] at h
      rw [← h.1, ← h.2]
      rfl
    · rw [if_neg hp] at h
      exact absurd h (by simp)
  | cons c rest ih =>
    rw [firstOccSplit_cons] at h
    by_cases hp : isPre pat (c :: rest) = true
    · rcases (isPre_iff _ _).mp hp with ⟨t, ht⟩
      simp only [hp, if_true, Option.some.injEq, Prod.mk.injEq] at h
      rw [ht, List.drop_left' rfl] at h
      rw [← h.1, ← h.2, ht]
      simp
    · rw [if_neg hp] at h
      cases hrec : firstOccSplit rest pat with
      | none => rw [hrec] at h; exact absurd h (by simp)
      | some pr =>
        rw [hrec] at h
        simp only [Option.map_some', Option.some.injEq, Prod.mk.injEq] at h
        obtain ⟨h1, h2⟩ := h
        subst h1
        subst h2
        simpa using congrArg (fun l => c :: l) (ih pr.1 (by rw [hrec]))

theorem firstOccSplit_isSome_of_contains (s pat : PyStr)
    (h : containsSub s pat = true) :
    ∃ pre post, firstOccSplit s pat = some (pre, post) := by
  induction s with
  | nil =>
    rw [containsSub_nil] at h
    exact ⟨[], [], by rw [firstOccSplit_nil, h]; rfl⟩
  | cons c rest ih =>
    rw [containsSub_cons, Bool.or_eq_true] at h
    by_cases hp : isPre pat (c :: rest) = true
    · exact ⟨[], (c :: rest).drop pat.length,
        by rw [firstOccSplit_cons, if_pos hp]⟩
    · rcases h with h | h
      · exact absurd h hp
      · rcases ih h with ⟨pre, post, hfs⟩
        exact ⟨c :: pre, post,
          by rw [firstOccSplit_cons, if_neg hp, hfs]; rfl⟩

/-- Decomposition of Python's `s.replace(a, b, 1)` at an occurrence. -/
theorem replaceFirst_decomp (s a b : PyStr)
    (h : containsSub s a = true) :
    ∃ pre post, s = pre ++ a ++ post ∧
      replaceFirst s a b = pre ++ b ++ post := by
  rcases firstOccSplit_isSome_of_contains s a h with ⟨pre, post, hfs⟩
  exact ⟨pre, post, firstOccSplit_sound s a pre post hfs,
    by rw [replaceFirst, hfs]⟩

/-! ### Digit strings -/

theorem digitsVal_append (A : PyStr) (c : Char) :
    digitsVal (A ++ [c]) = 10 * digitsVal A + (c.toNat - 48) := by
  simp [digitsVal, List.foldl_append]

theorem digitChar_toNat (d : Nat) (h : d < 10) :
    (Char.ofNat (48 + d)).toNat = 48 + d := by
  interval_cases d <;> decide

theorem digitsVal_revMap (ds : List Nat) (h : ∀ d ∈ ds, d < 10) :
    digitsVal ((ds.map (fun d => Char.ofNat (48 + d))).reverse) =
      Nat.ofDigits 10 ds := by
  induction ds with
  | nil => rfl
  | cons d ds ih =>
    have hd : d < 10 := h d (by simp)
    have hds : ∀ x ∈ ds, x < 10 := fun x hx => h x (by simp [hx])
    simp only [List.map_cons, List.reverse_cons, digitsVal_append, ih hds,
      digitChar_toNat d hd, Nat.ofDigits_cons]
    omega

theorem digitsVal_natRepr (n : Nat) : digitsVal (natRepr n) = n := by
  by_cases h : n = 0
  · subst h; rfl
  · rw [natRepr, if_neg h,
      digitsVal_revMap _ (fun d hd => Nat.digits_lt_base (by norm_num) hd),
      Nat.ofDigits_digits]

theorem natRepr_succ_ne (run : PyStr) :
    natRepr (digitsVal run + 1) ≠ run := by
  intro h
  have := digitsVal_natRepr (digitsVal run + 1)
  rw [h] at this
  omega

theorem findDigitRun_sound (s : PyStr) (pre run post : PyStr)
    (h : findDigitRun s = some (pre, run, post)) :
    s = pre ++ run ++ post := by
  induction s generalizing pre run post with
  | nil => exact absurd h (by simp [findDigitRun])
  | cons c rest ih =>
    rw [findDigitRun] at h
    by_cases hd : isDig c = true
    · simp only [hd, if_true, Option.some.injEq, Prod.mk.injEq] at h
      rw [← h.1, ← h.2.1, ← h.2.2]
      simp [List.takeWhile_append_dropWhile]
    · rw [if_neg hd] at h
      cases hrec : findDigitRun rest with
      | none => rw [hrec] at h; exact absurd h (by simp)
      | some t =>
        rw [hrec] at h
        simp only [Option.map_some', Option.some.injEq, Prod.mk.injEq] at h
        obtain ⟨h1, h2, h3⟩ := h
        subst h1; subst h2; subst h3
        simpa using congrArg (fun l => c :: l) (ih t.1 t.2.1 t.2.2
          (by rw [hrec]))

/-! ### `negate_statement`: C7 and C10 -/

/-- C7 — `negate_statement` applies its transformations in strict
precedence (modal swap before numeric tweak before suffix), performing one
substitution at the first matching occurrence: on every sentence containing
`应当` (and, as the claim instantiates it, a digit), the result is exactly
`s.replace("应当", "不得", 1)` and the digits of the sentence are left
unchanged. -/
theorem negate_modal_precedence (s : PyStr)
    (hmod : containsSub s (strToP "应当") = true)
    (hdig : ∃ c ∈ s, isDig c = true) :
    negate_statement s =
      replaceFirst s (strToP "应当") (strToP "不得") ∧
    (negate_statement s).filter isDig = s.filter isDig := by
  have hfind : pySwaps.find? (fun p => containsSub s p.1) =
      some (strToP "应当", strToP "不得") := by
    rw [pySwaps, List.find?_cons]
    simp [hmod]
  have hmain : negate_statement s =
      replaceFirst s (strToP "应当") (strToP "不得") := by
    rw [negate_statement, hfind]
  refine ⟨hmain, ?_⟩
  rcases replaceFirst_decomp s (strToP "应当") (strToP "不得") hmod with
    ⟨pre, post, hs, hr⟩
  rw [hmain, hr]
  conv_rhs => rw [hs]
  simp only [List.filter_append]
  rfl

/-- Witness for `negate_modal_precedence` at the sentence
`申请人应当在30日内提出。`. -/
theorem negate_modal_precedence_witness :
    negate_statement (strToP "申请人应当在30日内提出。") =
      replaceFirst (strToP "申请人应当在30日内提出。") (strToP "应当")
        (strToP "不得") ∧
    (negate_statement (strToP "申请人应当在30日内提出。")).filter isDig =
      (strToP "申请人应当在30日内提出。").filter isDig :=
  negate_modal_precedence (strToP "申请人应当在30日内提出。")
    (by decide) ⟨'3', by decide⟩

/-- C10 — `negate_statement` never returns its input unchanged: each of the
three branches (modal swap, digit increment, disclaimer suffix) produces a
textually different string. -/
theorem negate_statement_ne_self (s : PyStr) : negate_statement s ≠ s := by
  rw [negate_statement]
  cases hfind : pySwaps.find? (fun p => containsSub s p.1) with
  | some ab =>
    obtain ⟨a, b⟩ := ab
    show replaceFirst s a b ≠ s
    have hmem : (a, b) ∈ pySwaps := List.mem_of_find?_eq_some hfind
    have hcont : containsSub s a = true := by
      simpa using List.find?_some hfind
    have hne : b ≠ a := by
      fin_cases hmem <;> decide
    rcases replaceFirst_decomp s a b hcont with ⟨pre, post, hs, hr⟩
    rw [hr]
    intro heq
    conv_rhs at heq => rw [hs]
    rw [List.append_assoc, List.append_assoc] at heq
    exact hne (List.append_cancel_right
      (List.append_cancel_left heq))
  | none =>
    cases hdr : findDigitRun s with
    | some t =>
      obtain ⟨pre, run, post⟩ := t
      show pre ++ natRepr (digitsVal run + 1) ++ post ≠ s
      have hs := findDigitRun_sound s pre run post hdr
      intro heq
      conv_rhs at heq => rw [hs]
      rw [List.append_assoc, List.append_assoc] at heq
      exact natRepr_succ_ne run (List.append_cancel_right
        (List.append_cancel_left heq))
    | none =>
      show s ++ disclaimer ≠ s
      intro heq
      have hlen : s.length + disclaimer.length = s.length := by
        simpa using congrArg List.length heq
      have : disclaimer.length = 11 := by decide
      omega

/-! ### `normalize_text`: C8 -/

/-- Spec-side formulation of normalization: the maximal whitespace-free
blocks of the string, in order ("collapse every whitespace run, trim the
ends" leaves exactly these blocks joined by single spaces). -/
def words : PyStr → List PyStr
  | [] => []
  | c :: rest =>
    if isPyWS c then words rest
    else (c :: rest.takeWhile (fun d => !isPyWS d)) ::
      words (rest.dropWhile (fun d => !isPyWS d))
termination_by s => s.length
decreasing_by
  all_goals simp only [List.length_cons]
  · exact Nat.lt_succ_self _
  · exact Nat.lt_succ_of_le (List.dropWhile_sublist _).length_le

/-- Spec-side formulation: join blocks with single ASCII spaces. -/
def joinSpace : List PyStr → PyStr
  | [] => []
  | [w] => w
  | w₁ :: w₂ :: ws => w₁ ++ ' ' :: joinSpace (w₂ :: ws)

/-- Does the string start with a whitespace character? -/
def headWS : PyStr → Bool
  | [] => false
  | c :: _ => isPyWS c

/-- Does the string end with a whitespace character? -/
def endsWS (l : PyStr) : Bool :=
  match l.getLast? with
  | none => false
  | some c => isPyWS c

/-- The single trailing space that `collapseWS` leaves behind a trailing
whitespace run (present only when there is a preceding block). -/
def tsp (l : PyStr) : PyStr :=
  if endsWS l && !(words l).isEmpty then [' '] else []

theorem words_nil : words [] = [] := by rw [words]

theorem words_ws (c : Char) (rest : PyStr) (h : isPyWS c = true) :
    words (c :: rest) = words rest := by
  rw [words, if_pos h]

theorem words_nws (c : Char) (rest : PyStr) (h : ¬ isPyWS c = true) :
    words (c :: rest) =
      (c :: rest.takeWhile (fun d => !isPyWS d)) ::
        words (rest.dropWhile (fun d => !isPyWS d)) := by
  rw [words, if_neg h]

theorem words_eq_nil_iff (l : PyStr) :
    words l = [] ↔ ∀ c ∈ l, isPyWS c = true := by
  induction l with
  | nil => simp [words_nil]
  | cons c rest ih =>
    by_cases hc : isPyWS c = true
    · rw [words_ws c rest hc]
      simp [ih, hc]
    · rw [words_nws c rest hc]
      simp only [List.mem_cons]
      constructor
      · intro h; exact absurd h (by simp)
      · intro h; exact absurd (h c (Or.inl rfl)) hc

theorem endsWS_cons (c : Char) (rest : PyStr) (h : rest ≠ []) :
    endsWS (c :: rest) = endsWS rest := by
  cases rest with
  | nil => exact absurd rfl h
  | cons d rest' => rw [endsWS, List.getLast?_cons_cons, endsWS]

theorem endsWS_of_all (l : PyStr) (hne : l ≠ [])
    (h : ∀ c ∈ l, isPyWS c = true) : endsWS l = true := by
  rw [endsWS, List.getLast?_eq_getLast l hne]
  exact h _ (List.getLast_mem hne)

theorem joinSpace_cons_cons (w₁ w₂ : PyStr) (ws : List PyStr) :
    joinSpace (w₁ :: w₂ :: ws) = w₁ ++ ' ' :: joinSpace (w₂ :: ws) := by
  rw [joinSpace]

theorem joinSpace_pre (c : Char) (w : PyStr) (W : List PyStr) :
    joinSpace ((c :: w) :: W) = c :: joinSpace (w :: W) := by
  cases W with
  | nil => rfl
  | cons w₂ ws => rw [joinSpace_cons_cons, joinSpace_cons_cons]; rfl

theorem collapseWS_nil (b : Bool) : collapseWS b [] = [] := rfl

theorem collapseWS_ws_true (c : Char) (rest : PyStr) (h : isPyWS c = true) :
    collapseWS true (c :: rest) = collapseWS true rest := by
  rw [collapseWS, if_pos h]
  rfl

theorem collapseWS_ws_false (c : Char) (rest : PyStr) (h : isPyWS c = true) :
    collapseWS false (c :: rest) = ' ' :: collapseWS true rest := by
  rw [collapseWS, if_pos h]
  rfl

theorem collapseWS_nws (b : Bool) (c : Char) (rest : PyStr)
    (h : ¬ isPyWS c = true) :
    collapseWS b (c :: rest) = c :: collapseWS false rest := by
  cases b <;> rw [collapseWS, if_neg h]

theorem replaceNbsp_cons (c : Char) (l : PyStr) :
    replaceNbsp (c :: l) = (if c = '\xa0' then ' ' else c) :: replaceNbsp l :=
  rfl

/-- `collapseWS` never emits a no-break space, so the `replace` step of
`normalize_text` is the identity on its output. -/
theorem replaceNbsp_collapseWS (b : Bool) (l : PyStr) :
    replaceNbsp (collapseWS b l) = collapseWS b l := by
  induction l generalizing b with
  | nil => rfl
  | cons c rest ih =>
    by_cases hc : isPyWS c = true
    · cases b with
      | true => rw [collapseWS_ws_true c rest hc]; exact ih true
      | false =>
        rw [collapseWS_ws_false c rest hc, replaceNbsp_cons,
          if_neg (by decide), ih true]
    · rw [collapseWS_nws b c rest hc, replaceNbsp_cons,
        if_neg (fun h => hc (by subst h; decide)), ih false]

theorem tsp_nil : tsp [] = [] := by
  rw [tsp, words_nil]
  rfl

theorem joinSpace_words_nil : joinSpace (words []) ++ tsp [] = [] := by
  rw [words_nil, tsp_nil]
  rfl

/-- Joint characterization of `collapseWS` in both flag states, by strong
induction on the string. -/
theorem collapseWS_words (n : Nat) : ∀ l : PyStr, l.length ≤ n →
    collapseWS true l = joinSpace (words l) ++ tsp l ∧
    collapseWS false l =
      (if headWS l then [' '] else []) ++ (joinSpace (words l) ++ tsp l) := by
  induction n with
  | zero =>
    intro l hl
    rw [List.length_eq_zero.mp (Nat.le_zero.mp hl)]
    rw [joinSpace_words_nil]
    exact ⟨rfl, rfl⟩
  | succ n ih =>
    intro l hl
    cases l with
    | nil =>
      rw [joinSpace_words_nil]
      exact ⟨rfl, rfl⟩
    | cons c rest =>
      have hrest : rest.length ≤ n := by
        simp only [List.length_cons] at hl; omega
      by_cases hc : isPyWS c = true
      · have hwords : words (c :: rest) = words rest := words_ws c rest hc
        have htsp : tsp (c :: rest) = tsp rest := by
          rw [tsp, tsp, hwords]
          cases rest with
          | nil => simp [words_nil]
          | cons d rest' => rw [endsWS_cons c _ (by simp)]
        constructor
        · rw [collapseWS_ws_true c rest hc, (ih rest hrest).1, hwords, htsp]
        · rw [collapseWS_ws_false c rest hc, (ih rest hrest).1, hwords, htsp,
            headWS, if_pos hc]
          rfl
      · have hhead : (if headWS (c :: rest) then [' '] else ([] : PyStr)) = [] := by
          rw [headWS, if_neg hc]
        have key : c :: collapseWS false rest =
            joinSpace (words (c :: rest)) ++ tsp (c :: rest) := by
          rw [words_nws c rest hc]
          cases rest with
          | nil =>
            rw [collapseWS_nil, tsp]
            simp only [List.takeWhile_nil, List.dropWhile_nil, words_nil]
            have hends : endsWS [c] = false := by
              rw [endsWS]
              simpa using hc
            rw [words_nws c [] hc]
            simp [hends, joinSpace, words_nil]
          | cons d rest' =>
            have hB := (ih (d :: rest') hrest).2
            by_cases hd : isPyWS d = true
            · have htake : (d :: rest').takeWhile (fun x => !isPyWS x) = [] := by
                simp [List.takeWhile_cons, hd]
              have hdrop : (d :: rest').dropWhile (fun x => !isPyWS x) =
                  d :: rest' := by
                simp [List.dropWhile_cons, hd]
              rw [htake, hdrop, hB, headWS, if_pos hd]
              cases hwr : words (d :: rest') with
              | nil =>
                have hall : ∀ x ∈ d :: rest', isPyWS x = true :=
                  (words_eq_nil_iff _).mp hwr
                have htspc : tsp (c :: d :: rest') = [' '] := by
                  rw [tsp, endsWS_cons c _ (by simp),
                    words_nws c _ hc, htake, hdrop, hwr,
                    endsWS_of_all _ (by simp) hall]
                  rfl
                have htspd : tsp (d :: rest') = [] := by
                  rw [tsp, hwr]
                  simp
                rw [htspc, htspd]
                rfl
              | cons w W =>
                have htspc : tsp (c :: d :: rest') = tsp (d :: rest') := by
                  rw [tsp, tsp, endsWS_cons c _ (by simp),
                    words_nws c _ hc, htake, hdrop, hwr]
                  rfl
                rw [htspc, joinSpace_pre]
                simp [joinSpace_cons_cons]
            · have htake : (d :: rest').takeWhile (fun x => !isPyWS x) =
                  d :: rest'.takeWhile (fun x => !isPyWS x) := by
                simp [List.takeWhile_cons, hd]
              have hdrop : (d :: rest').dropWhile (fun x => !isPyWS x) =
                  rest'.dropWhile (fun x => !isPyWS x) := by
                simp [List.dropWhile_cons, hd]
              have hwd := words_nws d rest' hd
              have htspc : tsp (c :: d :: rest') = tsp (d :: rest') := by
                rw [tsp, tsp, endsWS_cons c _ (by simp),
                  words_nws c _ hc, htake, hdrop, hwd]
                rfl
              rw [htake, hdrop, hB, headWS, if_neg hd, hwd, htspc]
              simp [joinSpace_pre]
        exact ⟨by rw [collapseWS_nws true c rest hc, key],
          by rw [collapseWS_nws false c rest hc, key, hhead]; rfl⟩

/-- Every block produced by `words` is nonempty and whitespace-free. -/
theorem words_blocks (n : Nat) : ∀ l : PyStr, l.length ≤ n →
    ∀ w ∈ words l, w ≠ [] ∧ ∀ c ∈ w, isPyWS c = false := by
  induction n with
  | zero =>
    intro l hl
    rw [List.length_eq_zero.mp (Nat.le_zero.mp hl), words_nil]
    intro w hw
    exact absurd hw (by simp)
  | succ n ih =>
    intro l hl
    cases l with
    | nil =>
      rw [words_nil]
      intro w hw
      exact absurd hw (by simp)
    | cons c rest =>
      have hrest : rest.length ≤ n := by
        simp only [List.length_cons] at hl; omega
      by_cases hc : isPyWS c = true
      · rw [words_ws c rest hc]
        exact ih rest hrest
      · rw [words_nws c rest hc]
        intro w hw
        rcases List.mem_cons.mp hw with rfl | hw'
        · refine ⟨by simp, ?_⟩
          intro x hx
          rcases List.mem_cons.mp hx with rfl | hx'
          · exact Bool.not_eq_true _ ▸ (by simpa using hc)
          · have := List.mem_takeWhile_imp hx'
            simpa using this
        · exact ih (rest.dropWhile (fun d => !isPyWS d))
            (le_trans (List.dropWhile_sublist _).length_le hrest) w hw'

theorem takeWhile_append_all (p : Char → Bool) (A B : PyStr)
    (h : ∀ a ∈ A, p a = true) :
    (A ++ B).takeWhile p = A ++ B.takeWhile p := by
  induction A with
  | nil => simp
  | cons a A' ih =>
    simp only [List.cons_append, List.takeWhile_cons, h a (by simp),
      if_true]
    rw [ih (fun x hx => h x (by simp [hx]))]

theorem dropWhile_append_all (p : Char → Bool) (A B : PyStr)
    (h : ∀ a ∈ A, p a = true) :
    (A ++ B).dropWhile p = B.dropWhile p := by
  induction A with
  | nil => simp
  | cons a A' ih =>
    simp only [List.cons_append, List.dropWhile_cons, h a (by simp),
      if_true]
    exact ih (fun x hx => h x (by simp [hx]))

theorem takeWhile_all (p : Char → Bool) (A : PyStr)
    (h : ∀ a ∈ A, p a = true) : A.takeWhile p = A := by
  have := takeWhile_append_all p A [] h
  simpa using this

theorem dropWhile_all (p : Char → Bool) (A : PyStr)
    (h : ∀ a ∈ A, p a = true) : A.dropWhile p = [] := by
  have := dropWhile_append_all p A [] h
  simpa using this

/-- `words` is a left inverse of `joinSpace` on lists of nonempty
whitespace-free blocks. -/
theorem words_joinSpace (W : List PyStr)
    (hW : ∀ w ∈ W, w ≠ [] ∧ ∀ c ∈ w, isPyWS c = false) :
    words (joinSpace W) = W := by
  induction W with
  | nil => exact words_nil
  | cons w W' ih =>
    obtain ⟨hw, hchars⟩ := hW w (by simp)
    cases w with
    | nil => exact absurd rfl hw
    | cons c w' =>
      have hc : ¬ isPyWS c = true := by
        rw [hchars c (by simp)]; simp
      have hw' : ∀ a ∈ w', (fun d => !isPyWS d) a = true := by
        intro a ha
        simp [hchars a (by simp [ha])]
      cases W' with
      | nil =>
        show words (joinSpace [c :: w']) = _
        rw [joinSpace, words_nws c w' hc, takeWhile_all _ _ hw',
          dropWhile_all _ _ hw', words_nil]
      | cons w₂ W'' =>
        rw [joinSpace_cons_cons]
        show words (c :: (w' ++ ' ' :: joinSpace (w₂ :: W''))) = _
        rw [words_nws c _ hc,
          takeWhile_append_all _ _ _ hw',
          dropWhile_append_all _ _ _ hw']
        have hsp : (!isPyWS ' ') = false := by decide
        rw [List.takeWhile_cons, List.dropWhile_cons]
        simp only [hsp, Bool.false_eq_true, if_false, List.append_nil]
        rw [words_ws ' ' _ (by decide),
          ih (fun x hx => hW x (by simp [hx]))]

/-- Dropping from both ends around a whitespace-free core. -/
theorem pyStrip_sandwich (pfx x sfx : PyStr)
    (hp : ∀ c ∈ pfx, isPyWS c = true)
    (hs : ∀ c ∈ sfx, isPyWS c = true)
    (hx1 : headWS x = false)
    (hx2 : endsWS x = false) :
    pyStrip (pfx ++ (x ++ sfx)) = x := by
  rw [pyStrip, dropWhile_append_all _ _ _ hp]
  cases x with
  | nil =>
    rw [List.nil_append, dropWhile_all _ _ hs]
    rfl
  | cons c x' =>
    have hc : isPyWS c = false := by
      rw [headWS] at hx1; exact hx1
    rw [List.cons_append, List.dropWhile_cons, hc]
    simp only [Bool.false_eq_true, if_false]
    rcases List.eq_nil_or_concat (c :: x') with h | ⟨ys, a, hys⟩
    · exact absurd h (by simp)
    · rw [List.concat_eq_append] at hys
      have ha : isPyWS a = false := by
        rw [endsWS, hys, List.getLast?_concat] at hx2
        exact hx2
      rw [← List.cons_append, hys, List.reverse_append, List.reverse_append,
        dropWhile_append_all _ _ _ (fun d hd => hs d (by simpa using hd))]
      simp only [List.reverse_cons, List.reverse_nil, List.nil_append,
        List.singleton_append, List.dropWhile_cons, ha]
      simp [hys]

theorem joinSpace_concat (ys : List PyStr) (wl : PyStr) :
    ∃ r, joinSpace (ys ++ [wl]) = r ++ wl := by
  induction ys with
  | nil => exact ⟨[], by rw [List.nil_append, joinSpace, List.nil_append]⟩
  | cons y ys' ih =>
    rcases ih with ⟨r', hr'⟩
    cases hys : ys' ++ [wl] with
    | nil => exact absurd hys (by simp)
    | cons z zs =>
      refine ⟨y ++ ' ' :: r', ?_⟩
      rw [List.cons_append, hys, joinSpace_cons_cons, ← hys, hr']
      simp

theorem headWS_joinSpace_words (l : PyStr) :
    headWS (joinSpace (words l)) = false := by
  cases hw : words l with
  | nil => rfl
  | cons w W =>
    obtain ⟨hne, hchars⟩ := words_blocks l.length l le_rfl w (by rw [hw]; simp)
    cases w with
    | nil => exact absurd rfl hne
    | cons c w' =>
      rw [joinSpace_pre, headWS]
      exact hchars c (by simp)

theorem endsWS_joinSpace_words (l : PyStr) :
    endsWS (joinSpace (words l)) = false := by
  cases hw : words l with
  | nil => rfl
  | cons w W =>
    rcases List.eq_nil_or_concat (w :: W) with h | ⟨ys, wl, hys⟩
    · exact absurd h (by simp)
    · rw [List.concat_eq_append] at hys
      obtain ⟨hne, hchars⟩ := words_blocks l.length l le_rfl wl
        (by rw [hw, hys]; simp)
      rcases List.eq_nil_or_concat wl with h' | ⟨ws, a, hwl⟩
      · exact absurd h' hne
      · rw [List.concat_eq_append] at hwl
        rcases joinSpace_concat ys wl with ⟨r, hr⟩
        rw [hys, hr, hwl, endsWS, ← List.append_assoc, List.getLast?_concat]
        exact hchars a (by rw [hwl]; simp)

/-- The computed normalization equals the spec-side
"whitespace-free blocks joined by single spaces". -/
theorem normalize_text_words (s : PyStr) :
    normalize_text s = joinSpace (words s) := by
  rw [normalize_text, replaceNbsp_collapseWS,
    (collapseWS_words s.length s le_rfl).2]
  refine pyStrip_sandwich _ _ _ ?_ ?_ (headWS_joinSpace_words s)
    (endsWS_joinSpace_words s)
  · intro c hc
    by_cases h : headWS s = true
    · rw [if_pos h] at hc
      simp only [List.mem_singleton] at hc
      subst hc; decide
    · rw [if_neg h] at hc
      exact absurd hc (by simp)
  · intro c hc
    rw [tsp] at hc
    by_cases h : (endsWS s && !(words s).isEmpty) = true
    · rw [if_pos h] at hc
      simp only [List.mem_singleton] at hc
      subst hc; decide
    · rw [if_neg h] at hc
      exact absurd hc (by simp)

/-- C8 — `normalize_text` collapses every whitespace run (full-width space
included) to a single ASCII space and trims both ends — it returns exactly
the whitespace-free blocks of its input joined by single spaces — and it is
idempotent. -/
theorem normalize_text_spec_idempotent (s : PyStr) :
    normalize_text s = joinSpace (words s) ∧
    normalize_text (normalize_text s) = normalize_text s := by
  refine ⟨normalize_text_words s, ?_⟩
  rw [normalize_text_words s, normalize_text_words (joinSpace (words s)),
    words_joinSpace (words s) (words_blocks s.length s le_rfl)]

/-! ### Sampling and assembly: C1, C2, C3 -/

theorem cumsum_getLastD (acc : ℚ) (l : List ℚ) :
    (cumsum acc l).getLastD acc = acc + l.sum := by
  induction l generalizing acc with
  | nil => simp [cumsum]
  | cons w rest ih =>
    rw [cumsum, List.getLastD_cons, ih (acc + w), List.sum_cons]
    ring

theorem choicesGo_length [Inhabited α] (pop : List α) (cw : List ℚ)
    (total : ℚ) (hi k : Nat) (g : GSt) :
    ((choicesGo pop cw total hi k g).1).length = k := by
  induction k generalizing g with
  | zero => rfl
  | succ k ih => simp [choicesGo, ih]

theorem choicesGo_mem [Inhabited α] (pop : List α) (cw : List ℚ)
    (total : ℚ) (hi k : Nat) (g : GSt) :
    ∀ x ∈ (choicesGo pop cw total hi k g).1,
      ∃ i, i ≤ hi ∧ x = pop.getD i default := by
  induction k generalizing g with
  | zero => intro x hx; exact absurd hx (by simp [choicesGo])
  | succ k ih =>
    intro x hx
    simp only [choicesGo, List.mem_cons] at hx
    rcases hx with rfl | hx
    · exact ⟨bisectIdx cw ((drawGlobal g).1 * total) hi,
        min_le_right _ _, rfl⟩
    · exact ih (drawGlobal g).2 x hx

/-- C1 — the code raises on an empty article list: inside every
`weighted_sample` call, `random.choices` evaluates `cum_weights[-1]` on an
empty list and raises `IndexError` (even for `k = 0`), so
`assemble([], config, rng)` propagates the exception instead of returning
an Exam with five empty lists. -/
theorem assemble_exam_empty_articles_raises (cfg : Config) (g : GSt)
    (st : RSt) : assemble_exam [] cfg g st = none := rfl

def artA : Article :=
  ⟨strToP "f1", strToP "第1条", [], strToP "甲应当守法。", []⟩

def artB : Article :=
  ⟨strToP "f1", strToP "第2条", [], strToP "乙不得经商。", []⟩

/-- Uniform weights, no important articles. -/
def wEven : Weights := ⟨[], 1, 1⟩

/-- One true/false question requested, nothing else. -/
def cfgTF1 : Config := ⟨⟨1, 0, 0, 0, 0⟩, wEven⟩

/-- `random.choices` succeeds when the population is non-empty, the weight
list has matching length and the weight total is positive. -/
theorem pyChoicesW_some [Inhabited α] (pop : List α) (w : List ℚ) (k : Nat)
    (g : GSt) (hlen : pop.length = w.length) (hpos : 0 < w.sum)
    (hne : pop ≠ []) :
    pyChoicesW pop w k g =
      some (choicesGo pop (cumsum 0 w) ((cumsum 0 w).getLastD 0)
        (pop.length - 1) k g) := by
  cases pop with
  | nil => exact absurd rfl hne
  | cons p ps =>
    rw [pyChoicesW, if_neg (by simp [hlen])]
    have htot : ¬ ((cumsum 0 w).getLastD 0 ≤ 0) := by
      rw [cumsum_getLastD]
      simpa using not_le.mpr hpos
    simp only [if_neg htot]

/-- C2 — determinism fails for fixed `(articles, config, rng)`:
`weighted_sample` draws from the module-level global `random`, not from the
seeded rng passed down the call chain, so two calls of `assemble_exam` with
the same articles, config and rng stream but different global-random states
produce different Exams (here they disagree on the one true/false
question). -/
theorem assemble_exam_depends_on_global_source :
    assemble_exam [artA, artB] cfgTF1 [0, 0, 0, 0, 0, 0, 0, 0] [0] ≠
      assemble_exam [artA, artB] cfgTF1
        [(3 : ℚ)/5, 3/5, 3/5, 3/5, 3/5, 3/5, 3/5, 3/5] [0] := by
  have h1 : assemble_exam [artA, artB] cfgTF1 [0, 0, 0, 0, 0, 0, 0, 0] [0] =
      some ⟨[tfRecord artA (strToP "甲应当守法。") false], [], [], [], []⟩ := by
    have hws2 : weighted_sample [artA, artB] wEven (1 * 2)
        [0, 0, 0, 0, 0, 0, 0, 0] = some ([artA, artA], [0, 0, 0, 0, 0, 0]) := by
      norm_num [weighted_sample, pyChoicesW, articleWeights, wEven, cumsum,
        choicesGo, bisectIdx, drawGlobal, List.findIdx, List.findIdx.go,
        List.range_succ, List.getD]
    have hws0 : weighted_sample [artA, artB] wEven (0 * 2)
        [(0 : ℚ), 0, 0, 0, 0, 0] = some ([], [(0 : ℚ), 0, 0, 0, 0, 0]) := by
      norm_num [weighted_sample, pyChoicesW, articleWeights, wEven, cumsum,
        choicesGo, bisectIdx, drawGlobal, List.findIdx, List.findIdx.go,
        List.range_succ, List.getD]
    simp only [assemble_exam, cfgTF1, hws2, hws0]
    decide
  have h2 : assemble_exam [artA, artB] cfgTF1
      [(3 : ℚ)/5, 3/5, 3/5, 3/5, 3/5, 3/5, 3/5, 3/5] [0] =
      some ⟨[tfRecord artB (strToP "乙不得经商。") false], [], [], [], []⟩ := by
    have hws2 : weighted_sample [artA, artB] wEven (1 * 2)
        [(3 : ℚ)/5, 3/5, 3/5, 3/5, 3/5, 3/5, 3/5, 3/5] =
        some ([artB, artB], [(3 : ℚ)/5, 3/5, 3/5, 3/5, 3/5, 3/5]) := by
      norm_num [weighted_sample, pyChoicesW, articleWeights, wEven, cumsum,
        choicesGo, bisectIdx, drawGlobal, List.findIdx, List.findIdx.go,
        List.range_succ, List.getD]
    have hws0 : weighted_sample [artA, artB] wEven (0 * 2)
        [(3 : ℚ)/5, 3/5, 3/5, 3/5, 3/5, 3/5] =
        some ([], [(3 : ℚ)/5, 3/5, 3/5, 3/5, 3/5, 3/5]) := by
      norm_num [weighted_sample, pyChoicesW, articleWeights, wEven, cumsum,
        choicesGo, bisectIdx, drawGlobal, List.findIdx, List.findIdx.go,
        List.range_succ, List.getD]
    simp only [assemble_exam, cfgTF1, hws2, hws0]
    decide
  rw [h1, h2]
  intro h
  have := Option.some.inj h
  have hq := congrArg (fun e => Exam.true_false e) this
  simp [tfRecord, artA, artB, strToP] at hq

/-- C3 counterexample — with one article and `target_count = 2`, the
weighted-sampling step draws 1 article, not `2 × target_count = 4`: the
source clamps the draw count to `min(k, max(1, len(articles)))`. -/
theorem weighted_sample_count_counterexample :
    ((weighted_sample [artA] wEven (2 * 2)
        [(0 : ℚ), 0, 0, 0]).map (fun p => p.1.length)) = some 1 ∧
      (1 : Nat) ≠ 2 * 2 := by
  constructor
  · have hws : weighted_sample [artA] wEven (2 * 2) [(0 : ℚ), 0, 0, 0] =
        some ([artA], [(0 : ℚ), 0, 0]) := by
      norm_num [weighted_sample, pyChoicesW, articleWeights, wEven, cumsum,
        choicesGo, bisectIdx, drawGlobal, List.findIdx, List.findIdx.go,
        List.range_succ, List.getD]
    rw [hws]
    rfl
  · decide

/-- C3 as amended — on a non-empty article list with positive total weight,
the weighted-sampling step draws, with replacement,
`min(2 × target_count, len(articles))` articles (not always
`2 × target_count`), each drawn from the input list, with the per-article
weight list `articleWeights`: `important_weight` for articles whose
`article_no` is in the important set and the `default` weight otherwise. -/
theorem weighted_sample_amended (articles : List Article) (w : Weights)
    (t : Nat) (g : GSt) (hne : articles ≠ [])
    (hw : 0 < (articleWeights articles w).sum) :
    ∃ res g', weighted_sample articles w (2 * t) g = some (res, g') ∧
      res.length = min (2 * t) articles.length ∧
      ∀ a ∈ res, a ∈ articles := by
  have hlen : (List.range articles.length).length =
      (articleWeights articles w).length := by
    simp [articleWeights]
  have hpos : 0 < articles.length := List.length_pos.mpr hne
  have hpop : List.range articles.length ≠ [] := by
    rw [Ne, List.range_eq_nil]
    omega
  have hpcw := pyChoicesW_some (List.range articles.length)
    (articleWeights articles w)
    (min (2 * t) (max 1 (List.range articles.length).length)) g hlen hw hpop
  refine ⟨_, _, by rw [weighted_sample]; rw [hpcw], ?_, ?_⟩
  · rw [List.length_map, choicesGo_length, List.length_range]
    congr 1
    omega
  · intro a ha
    rcases List.mem_map.mp ha with ⟨i, hi, rfl⟩
    rcases choicesGo_mem _ _ _ _ _ _ i hi with ⟨j, hj, rfl⟩
    have hjlt : j < articles.length := by
      rw [List.length_range] at hj
      omega
    have hrange : (List.range articles.length).getD j default = j := by
      rw [List.getD_eq_getElem _ _ (by simpa using hjlt)]
      simp
    rw [hrange, List.getD_eq_getElem _ _ hjlt]
    exact List.getElem_mem hjlt

/-- Witness for `weighted_sample_amended`: one article, uniform weights,
`target_count = 2` — the draw returns `min(4, 1) = 1` article from the
list. -/
theorem weighted_sample_amended_witness :
    ∃ res g', weighted_sample [artA] wEven (2 * 2) [(0 : ℚ)] =
      some (res, g') ∧ res.length = min (2 * 2) [artA].length ∧
      ∀ a ∈ res, a ∈ [artA] :=
  weighted_sample_amended [artA] wEven 2 [(0 : ℚ)] (by simp)
    (by simp [articleWeights, wEven])

/-! ### `make_true_false`: C9 -/

/-- The instrumented inner loop projects onto the plain one. -/
theorem tfInner_ann (count : Nat) (art : Article) :
    ∀ (sents : List PyStr) (res : List (PyStr × Question))
      (seen : List PyStr) (st : RSt),
    tfInner count art sents (res.map Prod.snd, seen, st) =
      ((tfInnerAnn count art sents (res, seen, st)).1.map Prod.snd,
       (tfInnerAnn count art sents (res, seen, st)).2.1,
       (tfInnerAnn count art sents (res, seen, st)).2.2) := by
  intro sents
  induction sents with
  | nil => intro res seen st; rfl
  | cons s rest ih =>
    intro res seen st
    by_cases hcnt : count ≤ res.length
    · simp [tfInner, tfInnerAnn, List.length_map, hcnt]
    · by_cases hskip : s ∈ seen ∨ s.length < 6
      · simp only [tfInner, tfInnerAnn, List.length_map, if_neg hcnt,
          if_pos hskip]
        exact ih res seen st
      · simp only [tfInner, tfInnerAnn, List.length_map, if_neg hcnt,
          if_neg hskip]
        have := ih (res ++ [(s, tfRecord art
          (if (pyCoin st).1 then negate_statement s else s) (pyCoin st).1)])
          (s :: seen) (pyCoin st).2
        simpa using this

/-- The instrumented outer loop projects onto the plain one. -/
theorem tfOuter_ann (count : Nat) :
    ∀ (arts : List Article) (res : List (PyStr × Question))
      (seen : List PyStr) (st : RSt),
    tfOuter count arts (res.map Prod.snd, seen, st) =
      ((tfOuterAnn count arts (res, seen, st)).1.map Prod.snd,
       (tfOuterAnn count arts (res, seen, st)).2.1,
       (tfOuterAnn count arts (res, seen, st)).2.2) := by
  intro arts
  induction arts with
  | nil => intro res seen st; rfl
  | cons art arts' ih =>
    intro res seen st
    simp only [tfOuter, tfOuterAnn]
    rw [tfInner_ann count art _ res seen st]
    by_cases hcnt : count ≤
        ((tfInnerAnn count art (extract_entities art.text).sentences
          (res, seen, st)).1).length
    · simp only [List.length_map, if_pos hcnt]
    · simp only [List.length_map, if_neg hcnt]
      exact ih _ _ _

/-- The loop invariant of the instrumented true/false generator: distinct
pre-negation sources, all of length ≥ 6, all recorded in `seen`, question
text equal to the source or to its negation, and at most `count` emitted. -/
def tfInv (count : Nat)
    (acc : List (PyStr × Question) × List PyStr × RSt) : Prop :=
  ((acc.1.map Prod.fst).Nodup) ∧
  (∀ p ∈ acc.1, p.1 ∈ acc.2.1 ∧ 6 ≤ p.1.length ∧
    (p.2.question = p.1 ∨ p.2.question = negate_statement p.1)) ∧
  acc.1.length ≤ count

theorem tfInnerAnn_inv (count : Nat) (art : Article) :
    ∀ (sents : List PyStr) (acc : List (PyStr × Question) × List PyStr × RSt),
    tfInv count acc → tfInv count (tfInnerAnn count art sents acc) := by
  intro sents
  induction sents with
  | nil => intro acc h; exact h
  | cons s rest ih =>
    rintro ⟨res, seen, st⟩ h
    by_cases hcnt : count ≤ res.length
    · simpa [tfInnerAnn, hcnt] using h
    · by_cases hskip : s ∈ seen ∨ s.length < 6
      · simp only [tfInnerAnn, if_neg hcnt, if_pos hskip]
        exact ih _ h
      · simp only [tfInnerAnn, if_neg hcnt, if_neg hskip]
        push_neg at hskip
        obtain ⟨hnd, hmem, hlen⟩ := h
        refine ih _ ⟨?_, ?_, ?_⟩
        · simp only [List.map_append, List.map_cons, List.map_nil]
          rw [List.nodup_append]
          refine ⟨hnd, List.nodup_singleton s, ?_⟩
          intro x hx hxs
          simp only [List.mem_singleton] at hxs
          subst hxs
          rcases List.mem_map.mp hx with ⟨p, hp, hfst⟩
          exact hskip.1 (hfst ▸ (hmem p hp).1)
        · intro p hp
          rcases List.mem_append.mp hp with hp' | hp'
          · obtain ⟨h1, h2, h3⟩ := hmem p hp'
            exact ⟨List.mem_cons_of_mem _ h1, h2, h3⟩
          · simp only [List.mem_singleton] at hp'
            subst hp'
            refine ⟨List.mem_cons_self _ _, hskip.2, ?_⟩
            cases hflip : (pyCoin st).1 with
            | false => left; simp [tfRecord, hflip]
            | true => right; simp [tfRecord, hflip]
        · rw [List.length_append]
          simp only [List.length_cons, List.length_nil]
          omega

theorem tfOuterAnn_inv (count : Nat) :
    ∀ (arts : List Article) (acc : List (PyStr × Question) × List PyStr × RSt),
    tfInv count acc → tfInv count (tfOuterAnn count arts acc) := by
  intro arts
  induction arts with
  | nil => intro acc h; exact h
  | cons art arts' ih =>
    intro acc h
    simp only [tfOuterAnn]
    have h' := tfInnerAnn_inv count art (extract_entities art.text).sentences
      acc h
    by_cases hcnt : count ≤ (tfInnerAnn count art
        (extract_entities art.text).sentences acc).1.length
    · simpa [hcnt] using h'
    · simpa [hcnt] using ih _ h'

/-- C9 — within one run of the true/false generator no two emitted
questions derive from the same pre-negation source sentence (run-global
dedup), every source sentence shorter than 6 characters is skipped
(equivalently: every emitted question derives from a sentence of length
≥ 6, and its text is that sentence or its negation), and exhausting the
candidates yields a list of at most `count` questions rather than an
error (the function is total). -/
theorem make_true_false_dedup (arts : List Article) (count : Nat) (st : RSt) :
    (make_true_false arts count st).1 =
      (make_true_false_ann arts count st).map Prod.snd ∧
    ((make_true_false_ann arts count st).map Prod.fst).Nodup ∧
    (∀ p ∈ make_true_false_ann arts count st,
      6 ≤ p.1.length ∧
      (p.2.question = p.1 ∨ p.2.question = negate_statement p.1)) ∧
    (make_true_false arts count st).1.length ≤ count := by
  have hproj := tfOuter_ann count arts [] [] st
  have hinv := tfOuterAnn_inv count arts ([], [], st)
    ⟨by simp, by simp, by simp⟩
  obtain ⟨hnd, hmem, hlen⟩ := hinv
  have hmk : (make_true_false arts count st).1 =
      (make_true_false_ann arts count st).map Prod.snd := by
    rw [make_true_false, make_true_false_ann]
    rw [show (([] : List Question), ([] : List PyStr), st) =
      ((([] : List (PyStr × Question))).map Prod.snd, ([] : List PyStr), st)
      from rfl, hproj]
  refine ⟨hmk, hnd, ?_, ?_⟩
  · intro p hp
    exact ⟨(hmem p hp).2.1, (hmem p hp).2.2⟩
  · rw [hmk, List.length_map]
    exact hlen

/-- Witness for `make_true_false_dedup` at one concrete article: the run
emits one question whose pre-negation source has length ≥ 6, and the
annotated sources are duplicate-free. -/
theorem make_true_false_dedup_witness :
    ((make_true_false_ann [artA] 2 [0]).map Prod.fst).Nodup ∧
    6 ≤ ((make_true_false_ann [artA] 2 [0]).headD ([], default)).1.length :=
  ⟨(make_true_false_dedup [artA] 2 [0]).2.1,
   ((make_true_false_dedup [artA] 2 [0]).2.2.1 _ (by decide)).1⟩

/-! ### Shuffle and sample: permutation facts -/

theorem perm_getD_cons_eraseIdx [Inhabited α] :
    ∀ (l : List α) (i : Nat), i < l.length →
      l.Perm (l.getD i default :: l.eraseIdx i) := by
  intro l
  induction l with
  | nil => intro i hi; simp at hi
  | cons x xs ih =>
    intro i hi
    cases i with
    | zero => simp
    | succ j =>
      have hj : j < xs.length := by simpa using hi
      have h1 := (ih j hj).cons x
      have h2 := h1.trans (List.Perm.swap (xs.getD j default) x (xs.eraseIdx j))
      rw [List.getD_cons_succ, List.eraseIdx_cons_succ]
      exact h2

theorem pickIdx_fst_mem [Inhabited α] (x : α) (l : List α) (st : RSt) :
    (pickIdx (x :: l) st).1 ∈ x :: l := by
  simp only [pickIdx, drawNat]
  have hm : (st.headD 0) % (x :: l).length < (x :: l).length :=
    Nat.mod_lt _ (by simp)
  rw [List.getD_eq_getElem _ _ hm]
  exact List.getElem_mem hm

theorem pickIdx_snd [Inhabited α] (x : α) (l : List α) (st : RSt) :
    (pickIdx (x :: l) st).2.1 =
      (x :: l).eraseIdx ((st.headD 0) % (x :: l).length) := by
  simp only [pickIdx, drawNat]

theorem pickIdx_perm [Inhabited α] (x : α) (l : List α) (st : RSt) :
    (x :: l).Perm ((pickIdx (x :: l) st).1 :: (pickIdx (x :: l) st).2.1) := by
  simp only [pickIdx, drawNat]
  exact perm_getD_cons_eraseIdx (x :: l) _ (Nat.mod_lt _ (by simp))

theorem shuffleGo_perm [Inhabited α] (n : Nat) :
    ∀ (rem : List α), rem.length ≤ n → ∀ (acc : List α) (st : RSt),
      (shuffleGo n rem acc st).1.Perm (rem ++ acc) := by
  induction n with
  | zero =>
    intro rem hrem acc st
    rw [List.length_eq_zero.mp (Nat.le_zero.mp hrem)]
    rw [shuffleGo]
    simpa using List.reverse_perm acc
  | succ n ih =>
    intro rem hrem acc st
    cases rem with
    | nil =>
      rw [shuffleGo]
      simpa using List.reverse_perm acc
    | cons c rest =>
      rw [shuffleGo]
      have hlen : (pickIdx (c :: rest) st).2.1.length ≤ n := by
        have := pickIdx_length_lt c rest st
        simp only [List.length_cons] at this hrem
        omega
      have hrec := ih _ hlen
        ((pickIdx (c :: rest) st).1 :: acc) (pickIdx (c :: rest) st).2.2
      refine hrec.trans ?_
      refine (List.perm_middle).trans ?_
      have hp := (pickIdx_perm c rest st).symm.append_right acc
      simpa using hp

/-- `rng.shuffle` permutes its input. -/
theorem pyShuffle_perm [Inhabited α] (l : List α) (st : RSt) :
    (pyShuffle l st).1.Perm l := by
  have := shuffleGo_perm l.length l le_rfl [] st
  rw [pyShuffle]
  simpa using this

theorem sampleGo_mem [Inhabited α] :
    ∀ (k : Nat) (rem acc : List α) (st : RSt),
      ∀ x ∈ (sampleGo k rem acc st).1, x ∈ rem ∨ x ∈ acc := by
  intro k
  induction k with
  | zero =>
    intro rem acc st x hx
    rw [sampleGo] at hx
    exact Or.inr (by simpa using hx)
  | succ k ih =>
    intro rem acc st x hx
    cases rem with
    | nil =>
      rw [sampleGo] at hx
      exact Or.inr (by simpa using hx)
    | cons c rest =>
      rw [sampleGo] at hx
      rcases ih _ _ _ x hx with h | h
      · exact Or.inl ((List.eraseIdx_sublist _ _).mem h)
      · rcases List.mem_cons.mp h with rfl | h'
        · exact Or.inl (pickIdx_fst_mem c rest st)
        · exact Or.inr h'

theorem sampleGo_length [Inhabited α] :
    ∀ (k : Nat) (rem acc : List α) (st : RSt),
      (sampleGo k rem acc st).1.length = min k rem.length + acc.length := by
  intro k
  induction k with
  | zero => intro rem acc st; simp [sampleGo]
  | succ k ih =>
    intro rem acc st
    cases rem with
    | nil => simp [sampleGo]
    | cons c rest =>
      rw [sampleGo, ih]
      have herase : (pickIdx (c :: rest) st).2.1.length = rest.length := by
        rw [pickIdx_snd,
          List.length_eraseIdx_of_lt (Nat.mod_lt _ (by simp))]
        simp
      rw [herase]
      simp only [List.length_cons]
      omega

theorem sampleGo_nodup [Inhabited α] :
    ∀ (k : Nat) (rem acc : List α) (st : RSt), rem.Nodup → acc.Nodup →
      (∀ x ∈ acc, x ∉ rem) → (sampleGo k rem acc st).1.Nodup := by
  intro k
  induction k with
  | zero =>
    intro rem acc st _ hacc _
    rw [sampleGo]
    simpa using hacc
  | succ k ih =>
    intro rem acc st hrem hacc hdisj
    cases rem with
    | nil =>
      rw [sampleGo]
      simpa using hacc
    | cons c rest =>
      rw [sampleGo]
      have hperm := pickIdx_perm c rest st
      have hnd' : ((pickIdx (c :: rest) st).1 ::
          (pickIdx (c :: rest) st).2.1).Nodup := hperm.nodup_iff.mp hrem
      refine ih _ _ _ (List.Nodup.of_cons hnd') ?_ ?_
      · refine List.Nodup.cons ?_ hacc
        intro hmem
        exact hdisj _ hmem (pickIdx_fst_mem c rest st)
      · intro x hx
        rcases List.mem_cons.mp hx with rfl | hx'
        · exact (List.nodup_cons.mp hnd').1
        · intro hmem
          exact hdisj x hx' ((List.eraseIdx_sublist _ _).mem hmem)

/-- Elements of `rng.sample` come from the population. -/
theorem pySample_mem [Inhabited α] (l : List α) (k : Nat) (st : RSt) :
    ∀ x ∈ (pySample l k st).1, x ∈ l := by
  intro x hx
  rcases sampleGo_mem k l [] st x hx with h | h
  · exact h
  · exact absurd h (by simp)

/-- `rng.sample(pop, k)` returns `min k pop.length` elements. -/
theorem pySample_length [Inhabited α] (l : List α) (k : Nat) (st : RSt) :
    (pySample l k st).1.length = min k l.length := by
  have := sampleGo_length k l [] st
  simpa [pySample] using this

/-- `rng.sample` of a duplicate-free population is duplicate-free. -/
theorem pySample_nodup [Inhabited α] (l : List α) (k : Nat) (st : RSt)
    (h : l.Nodup) : (pySample l k st).1.Nodup :=
  sampleGo_nodup k l [] st h (by simp) (by simp)

/-- `rng.choice` of a non-empty sequence returns one of its elements. -/
theorem pyChoice_mem [Inhabited α] (l : List α) (st : RSt) (h : l ≠ []) :
    (pyChoice l st).1 ∈ l := by
  simp only [pyChoice, drawNat]
  have hm : (st.headD 0) % l.length < l.length :=
    Nat.mod_lt _ (List.length_pos.mpr h)
  rw [List.getD_eq_getElem _ _ hm]
  exact List.getElem_mem hm

/-! ### Distractor pool and single choice: C4 -/

theorem dedupFirstGo_subset [DecidableEq α] :
    ∀ (l seen : List α), ∀ x ∈ dedupFirstGo seen l, x ∈ l := by
  intro l
  induction l with
  | nil =>
    intro seen x hx
    rw [dedupFirstGo] at hx
    exact absurd hx (by simp)
  | cons y rest ih =>
    intro seen x hx
    rw [dedupFirstGo] at hx
    by_cases hy : y ∈ seen
    · rw [if_pos hy] at hx
      exact List.mem_cons_of_mem _ (ih seen x hx)
    · rw [if_neg hy] at hx
      rcases List.mem_cons.mp hx with rfl | hx'
      · exact List.mem_cons_self _ _
      · exact List.mem_cons_of_mem _ (ih (y :: seen) x hx')

theorem dedupFirst_subset [DecidableEq α] (l : List α) :
    ∀ x ∈ dedupFirst l, x ∈ l :=
  dedupFirstGo_subset l []

theorem pick_keywords_key_terms (t : PyStr) (k : Nat) :
    ∀ kw ∈ pick_keywords (extract_entities t) k, kw ∈ KEY_TERMS := by
  intro kw hkw
  rw [pick_keywords] at hkw
  have h1 := List.mem_of_mem_take hkw
  have h2 := dedupFirst_subset _ kw h1
  have hterms : (extract_entities t).terms =
      KEY_TERMS.filter (fun s => containsSub (normalize_text t) s) := rfl
  have hnouns : (extract_entities t).nouns = [] := rfl
  rw [hterms, hnouns, List.append_nil] at h2
  exact List.mem_of_mem_filter h2

theorem key_terms_length : ∀ kw ∈ KEY_TERMS, kw.length = 2 := by decide

theorem pool_mem (arts : List Article) :
    ∀ p ∈ build_distractor_pool arts,
      ∃ kw, kw ∈ KEY_TERMS ∧ p = poolEntry kw := by
  intro p hp
  rw [build_distractor_pool] at hp
  have h1 := dedupFirst_subset _ p hp
  rcases List.mem_flatMap.mp h1 with ⟨art, _, hmem⟩
  rcases List.mem_map.mp hmem with ⟨kw, hkw, rfl⟩
  exact ⟨kw, pick_keywords_key_terms art.text 4 kw hkw, rfl⟩

theorem poolEntry_length (kw : PyStr) :
    (poolEntry kw).length = kw.length + 13 := by
  rw [poolEntry, List.length_append, List.length_append]
  have h1 : (strToP "关于“").length = 3 := by decide
  have h2 : (strToP "”的表述不符合该法条").length = 10 := by decide
  omega

theorem scCorrect_length (key : PyStr) :
    (scCorrect key).length = key.length + 12 := by
  rw [scCorrect, List.length_append, List.length_append]
  have h1 : (strToP "关于“").length = 3 := by decide
  have h2 : (strToP "”的表述符合该法条").length = 9 := by decide
  omega

theorem poolEntry_ne_scCorrect (kw key : PyStr) (h1 : kw.length = 2)
    (h2 : key.length = 2) : poolEntry kw ≠ scCorrect key := by
  intro h
  have := congrArg List.length h
  rw [poolEntry_length, scCorrect_length, h1, h2] at this
  omega

theorem sample_distractors_mem (pool : List PyStr) (key : PyStr) (n : Nat)
    (st : RSt) : ∀ d ∈ (sample_distractors pool key n st).1, d ∈ pool := by
  intro d hd
  rw [sample_distractors] at hd
  by_cases hc : (pool.filter (fun p => ¬ containsSub p key)).length < n
  · rw [if_pos hc] at hd
    exact pySample_mem _ _ _ d hd
  · rw [if_neg hc] at hd
    exact List.mem_of_mem_filter (pySample_mem _ _ _ d hd)

theorem sample_distractors_length_le (pool : List PyStr) (key : PyStr)
    (n : Nat) (st : RSt) :
    (sample_distractors pool key n st).1.length ≤ n := by
  rw [sample_distractors]
  by_cases hc : (pool.filter (fun p => ¬ containsSub p key)).length < n
  · rw [if_pos hc, pySample_length]
    omega
  · rw [if_neg hc, pySample_length]
    omega

/-- `list.index(x)` on a member: in range and pointing at `x`. -/
theorem indexOf_mem_spec :
    ∀ (l : List PyStr) (a : PyStr), a ∈ l →
      l.indexOf a < l.length ∧ l.getD (l.indexOf a) [] = a := by
  intro l
  induction l with
  | nil => intro a ha; exact absurd ha (by simp)
  | cons b bs ih =>
    intro a ha
    by_cases hba : (b == a) = true
    · have hb : b = a := by simpa using hba
      constructor
      · rw [List.indexOf_cons]
        simp [hba]
      · rw [List.indexOf_cons]
        simpa [hba] using hb
    · have hf : (b == a) = false := by simpa using hba
      have ha' : a ∈ bs := by
        rcases List.mem_cons.mp ha with rfl | h'
        · exact absurd (by simp) hba
        · exact h'
      obtain ⟨h1, h2⟩ := ih a ha'
      constructor
      · rw [List.indexOf_cons]
        simp only [hf, cond_false, List.length_cons]
        omega
      · rw [List.indexOf_cons]
        simp only [hf, cond_false, List.getD_cons_succ]
        exact h2

/-- Validity of one single-choice question: some keyword's "correct" string
appears exactly once among the options, the options list has at most four
entries, and the answer letter indexes exactly the correct option. -/
def scValid (q : Question) : Prop :=
  ∃ key opts i, key ∈ KEY_TERMS ∧ q.options = some opts ∧
    opts.countP (fun o => o = scCorrect key) = 1 ∧
    i < opts.length ∧ opts.length ≤ 4 ∧
    opts.getD i [] = scCorrect key ∧
    q.answer = PyAnswer.s [Char.ofNat (65 + i)]

theorem scGo_inv (count : Nat) (pool : List PyStr)
    (hpool : ∀ p ∈ pool, ∃ kw, kw ∈ KEY_TERMS ∧ p = poolEntry kw) :
    ∀ (arts : List Article) (res : List Question) (seenQ : List PyStr)
      (st : RSt), (∀ q ∈ res, scValid q) →
      ∀ q ∈ (scGo count pool arts (res, seenQ, st)).1, scValid q := by
  intro arts
  induction arts with
  | nil => intro res seenQ st h q hq; exact h q hq
  | cons art arts' ih =>
    intro res seenQ st h q hq
    rw [scGo] at hq
    by_cases hcnt : count ≤ res.length
    · rw [if_pos hcnt] at hq
      exact h q hq
    · rw [if_neg hcnt] at hq
      by_cases hkws : pick_keywords (extract_entities art.text) 5 = []
      · rw [if_pos hkws] at hq
        exact ih res seenQ st h q hq
      · rw [if_neg hkws] at hq
        set e := extract_entities art.text with he
        set kws := pick_keywords e 5 with hkwsdef
        set st1 := (chooseStem e art st).2 with hst1
        set key := (pyChoice kws st1).1 with hkey
        set st2 := (pyChoice kws st1).2 with hst2
        set distractors := (sample_distractors pool key 3 st2).1 with hdis
        set st3 := (sample_distractors pool key 3 st2).2 with hst3
        set options' := (pyShuffle (scCorrect key :: distractors) st3).1
          with hopts
        have hkeyK : key ∈ KEY_TERMS :=
          pick_keywords_key_terms art.text 5 key
            (pyChoice_mem kws st1 hkws)
        have hvalid : scValid
            { qtype := strToP "single"
              question := strToP "依据" ++ art.article_no ++
                strToP "，下列哪一项是正确的？\n" ++ (chooseStem e art st).1
              options := some options'
              answer := .s [Char.ofNat (65 + options'.indexOf (scCorrect key))]
              source_file := art.source_file
              source_article := art.article_no } := by
          have hperm := pyShuffle_perm (scCorrect key :: distractors) st3
          have hz : distractors.countP (fun o => o = scCorrect key) = 0 := by
            rw [List.countP_eq_zero]
            intro d hd
            rcases hpool d (sample_distractors_mem pool key 3 st2 d hd)
              with ⟨kw, hkwK, rfl⟩
            simp only [decide_eq_true_eq]
            exact poolEntry_ne_scCorrect kw key
              (key_terms_length kw hkwK) (key_terms_length key hkeyK)
          have hcount : options'.countP
              (fun o => o = scCorrect key) = 1 := by
            rw [hperm.countP_eq, List.countP_cons, hz]
            simp
          have hpos : 0 < options'.countP (fun o => o = scCorrect key) := by
            omega
          have hmem : scCorrect key ∈ options' := by
            rcases List.countP_pos_iff.mp hpos with ⟨a, ha, hpa⟩
            simp only [decide_eq_true_eq] at hpa
            exact hpa ▸ ha
          have hidx : options'.indexOf (scCorrect key) < options'.length :=
            (indexOf_mem_spec options' _ hmem).1
          have hlen4 : options'.length ≤ 4 := by
            rw [hperm.length_eq, List.length_cons]
            have hd3 := sample_distractors_length_le pool key 3 st2
            rw [← hdis] at hd3
            omega
          exact ⟨key, options', options'.indexOf (scCorrect key), hkeyK,
            rfl, hcount, hidx, hlen4, (indexOf_mem_spec options' _ hmem).2,
            rfl⟩
        by_cases hdup : (strToP "依据" ++ art.article_no ++
            strToP "，下列哪一项是正确的？\n" ++ (chooseStem e art st).1) ∈ seenQ
        · rw [if_pos hdup] at hq
          exact ih res seenQ _ h q hq
        · rw [if_neg hdup] at hq
          refine ih _ _ _ ?_ q hq
          intro q' hq'
          rcases List.mem_append.mp hq' with hq'' | hq''
          · exact h q' hq''
          · simp only [List.mem_singleton] at hq''
            subst hq''
            exact hvalid

/-- C4 — for every question emitted by the single-choice generator, exactly
one option equals the "correct" string built from the chosen keyword before
shuffling, the options list has at most 4 entries, and the answer letter
(A plus the index) points at exactly that option in the post-shuffle
order. -/
theorem make_single_choice_answer (arts : List Article) (count : Nat)
    (st : RSt) : ∀ q ∈ (make_single_choice arts count st).1, scValid q :=
  scGo_inv count (build_distractor_pool arts) (pool_mem arts) arts [] [] st
    (by simp)

/-- Concrete article used by the single-choice witness. -/
def artC4 : Article :=
  ⟨strToP "f1", strToP "第3条", [], strToP "纳税人应当依法纳税。", []⟩

/-- Witness for `make_single_choice_answer`: the generator run on one
concrete article emits a question, and the theorem instantiates on it. -/
theorem make_single_choice_answer_witness :
    scValid ((make_single_choice [artC4] 1 [0, 0, 0, 0, 0, 0]).1.headD
      default) :=
  make_single_choice_answer [artC4] 1 [0, 0, 0, 0, 0, 0]
    ((make_single_choice [artC4] 1 [0, 0, 0, 0, 0, 0]).1.headD default)
    (by decide)

/-! ### Multiple choice: C5 -/

theorem mcCorrect_ne_poolEntry (kw kw' : PyStr) :
    mcCorrect kw ≠ poolEntry kw' := by
  intro h
  have h1 : (mcCorrect kw).headD ' ' = '与' := rfl
  have h2 : (poolEntry kw').headD ' ' = '关' := rfl
  rw [h] at h1
  exact absurd (h2.symm.trans h1) (by decide)

theorem enumFrom_filter_length (pr : PyStr → Bool) :
    ∀ (l : List PyStr) (n : Nat),
      ((List.enumFrom n l).filter (fun p => pr p.2)).length = l.countP pr := by
  intro l
  induction l with
  | nil => intro n; rfl
  | cons a l' ih =>
    intro n
    rw [List.enumFrom_cons, List.filter_cons, List.countP_cons]
    by_cases hpa : pr a = true
    · simp [hpa, ih]
    · simp [hpa, ih]

theorem mcLetters_length (opts cor : List PyStr) :
    (mcLetters opts cor).length = opts.countP (fun o => o ∈ cor) := by
  rw [mcLetters, List.length_map,
    show opts.enum = List.enumFrom 0 opts from rfl]
  exact enumFrom_filter_length (fun o => decide (o ∈ cor)) opts 0

theorem pyRandint_ge (a b : Nat) (st : RSt) : a ≤ (pyRandint a b st).1 := by
  simp [pyRandint, drawNat]

/-- Validity of one multiple-choice question: the options are a permutation
of the correct strings built from the drawn keywords plus pool distractors,
the answer letters are recomputed from post-shuffle membership, they are
non-empty, and a proper subset of the option indices whenever a distractor
was added. -/
def mcValid (q : Question) : Prop :=
  ∃ chosen dis opts, q.options = some opts ∧
    opts.Perm (chosen.map mcCorrect ++ dis) ∧
    chosen ≠ [] ∧
    (∀ d ∈ dis, ∃ kw, kw ∈ KEY_TERMS ∧ d = poolEntry kw) ∧
    q.answer = PyAnswer.l (mcLetters opts (chosen.map mcCorrect)) ∧
    mcLetters opts (chosen.map mcCorrect) ≠ [] ∧
    (dis ≠ [] → (mcLetters opts (chosen.map mcCorrect)).length < opts.length)

theorem mcGo_inv (count : Nat) (pool : List PyStr)
    (hpool : ∀ p ∈ pool, ∃ kw, kw ∈ KEY_TERMS ∧ p = poolEntry kw) :
    ∀ (arts : List Article) (res : List Question) (st : RSt),
      (∀ q ∈ res, mcValid q) →
      ∀ q ∈ (mcGo count pool arts (res, st)).1, mcValid q := by
  intro arts
  induction arts with
  | nil => intro res st h q hq; exact h q hq
  | cons art arts' ih =>
    intro res st h q hq
    rw [mcGo] at hq
    by_cases hcnt : count ≤ res.length
    · rw [if_pos hcnt] at hq
      exact h q hq
    · rw [if_neg hcnt] at hq
      by_cases hkws : (pick_keywords (extract_entities art.text) 6).length < 2
      · rw [if_pos hkws] at hq
        exact ih res st h q hq
      · rw [if_neg hkws] at hq
        set e := extract_entities art.text with he
        set kws := pick_keywords e 6 with hkwsdef
        set st1 := (chooseStem e art st).2 with hst1
        set numCorrect := (pyRandint 2 (min 4 kws.length) st1).1 with hnc
        set st2 := (pyRandint 2 (min 4 kws.length) st1).2 with hst2
        set chosen := (pySample kws numCorrect st2).1 with hchosen
        set st3 := (pySample kws numCorrect st2).2 with hst3
        set dis := (sample_distractors pool (List.intercalate ['|'] kws)
          (5 - numCorrect) st3).1 with hdis
        set st4 := (sample_distractors pool (List.intercalate ['|'] kws)
          (5 - numCorrect) st3).2 with hst4
        set options' := (pyShuffle (chosen.map mcCorrect ++ dis) st4).1
          with hopts
        refine ih _ _ ?_ q hq
        intro q' hq'
        rcases List.mem_append.mp hq' with hq'' | hq''
        · exact h q' hq''
        · simp only [List.mem_singleton] at hq''
          subst hq''
          have hperm : options'.Perm (chosen.map mcCorrect ++ dis) :=
            pyShuffle_perm _ st4
          have hnc2 : 2 ≤ numCorrect := pyRandint_ge 2 _ st1
          have hklen : 2 ≤ kws.length := by omega
          have hchne : chosen ≠ [] := by
            have hlen : chosen.length = min numCorrect kws.length := by
              rw [hchosen, pySample_length]
            intro hnil
            rw [hnil] at hlen
            simp only [List.length_nil] at hlen
            omega
          have hdismem : ∀ d ∈ dis, ∃ kw, kw ∈ KEY_TERMS ∧
              d = poolEntry kw := by
            intro d hd
            exact hpool d (sample_distractors_mem _ _ _ _ d
              (by rw [hdis] at hd; exact hd))
          have hdisncor : ∀ d ∈ dis, ¬ d ∈ chosen.map mcCorrect := by
            intro d hd hmem
            rcases List.mem_map.mp hmem with ⟨kw, _, rfl⟩
            rcases hdismem _ hd with ⟨kw', _, heq⟩
            exact mcCorrect_ne_poolEntry kw kw' heq
          have hcorpos : 0 < options'.countP
              (fun o => o ∈ chosen.map mcCorrect) := by
            rcases List.exists_mem_of_ne_nil chosen hchne with ⟨c, hc⟩
            refine List.countP_pos_iff.mpr
              ⟨mcCorrect c, ?_, by simp [List.mem_map]; exact ⟨c, hc, rfl⟩⟩
            exact hperm.mem_iff.mpr
              (List.mem_append_left _ (List.mem_map_of_mem _ hc))
          have hne : mcLetters options' (chosen.map mcCorrect) ≠ [] := by
            intro hnil
            have := mcLetters_length options' (chosen.map mcCorrect)
            rw [hnil] at this
            simp only [List.length_nil] at this
            omega
          refine ⟨chosen, dis, options', rfl, hperm, hchne, hdismem, rfl,
            hne, ?_⟩
          intro hdisne
          rcases List.exists_mem_of_ne_nil dis hdisne with ⟨d, hd⟩
          have hdopts : d ∈ options' :=
            hperm.mem_iff.mpr (List.mem_append_right _ hd)
          rw [mcLetters_length]
          refine lt_of_le_of_ne (List.countP_le_length _) ?_
          intro heq
          have hall := List.countP_eq_length.mp heq
          have := hall d hdopts
          simp only [decide_eq_true_eq] at this
          exact hdisncor d hd this

/-- C5 — for every question emitted by the multiple-choice generator, the
answer letters are exactly the post-shuffle positions whose option text
belongs to the correct set built from the sampled keywords; the answer is
non-empty, and it is a proper subset of the option indices whenever at
least one distractor was added. -/
theorem make_multiple_choice_answer (arts : List Article) (count : Nat)
    (st : RSt) : ∀ q ∈ (make_multiple_choice arts count st).1, mcValid q :=
  mcGo_inv count (build_distractor_pool arts) (pool_mem arts) arts [] st
    (by simp)

/-- Concrete article used by the multiple-choice witness. -/
def artC5 : Article :=
  ⟨strToP "f1", strToP "第4条", [], strToP "纳税人应当依法纳税，不得偷税。", []⟩

/-- Witness for `make_multiple_choice_answer` at a concrete article with two
extractable keywords. -/
theorem make_multiple_choice_answer_witness :
    mcValid ((make_multiple_choice [artC5] 1
      [0, 0, 0, 0, 0, 0, 0, 0, 0, 0, 0, 0]).1.headD default) :=
  make_multiple_choice_answer [artC5] 1 [0, 0, 0, 0, 0, 0, 0, 0, 0, 0, 0, 0]
    ((make_multiple_choice [artC5] 1
      [0, 0, 0, 0, 0, 0, 0, 0, 0, 0, 0, 0]).1.headD default)
    (by decide)

/-! ### Fill-in-the-blank: C6 -/

/-- Number of positions of `s` at which `pat` occurs (occurrences may
overlap); "the marker appears exactly once" is `countOcc s pat = 1`. -/
def countOcc (s pat : PyStr) : Nat :=
  (List.range (s.length + 1)).countP (fun p => isPre pat (s.drop p))

/-- A whitespace-free pattern that prefixes the collapsed string prefixes
the original. -/
theorem isPre_collapseWS (pat : PyStr)
    (hws : ∀ c ∈ pat, isPyWS c = false) :
    ∀ rest : PyStr, isPre pat (collapseWS false rest) = true →
      isPre pat rest = true := by
  induction pat with
  | nil => intro rest _; rfl
  | cons d p2 ihp =>
    intro rest h
    cases rest with
    | nil => rw [collapseWS_nil] at h; exact absurd h (by simp [isPre])
    | cons e rest' =>
      by_cases he : isPyWS e = true
      · rw [collapseWS_ws_false e rest' he] at h
        have hd : (d = ' ') ∧ isPre p2 (collapseWS true rest') = true := by
          simpa [isPre] using h
        have := hws d (by simp)
        rw [hd.1] at this
        exact absurd this (by decide)
      · rw [collapseWS_nws false e rest' he] at h
        have hd : (d = e) ∧ isPre p2 (collapseWS false rest') = true := by
          simpa [isPre] using h
        have hp2 := ihp (fun c hc => hws c (by simp [hc])) rest' hd.2
        simp [isPre, hd.1, hp2]

/-- A whitespace-free pattern contained in the collapsed string is
contained in the original. -/
theorem containsSub_collapseWS (pat : PyStr) (hne : pat ≠ [])
    (hws : ∀ c ∈ pat, isPyWS c = false) :
    ∀ (l : PyStr) (b : Bool), containsSub (collapseWS b l) pat = true →
      containsSub l pat = true := by
  intro l
  induction l with
  | nil =>
    intro b h
    rw [collapseWS_nil, containsSub_nil] at h
    cases pat with
    | nil => exact absurd rfl hne
    | cons d p2 => exact absurd h (by simp [isPre])
  | cons c rest ih =>
    intro b h
    obtain ⟨d, p2, rfl⟩ : ∃ d p2, pat = d :: p2 := by
      cases pat with
      | nil => exact absurd rfl hne
      | cons d p2 => exact ⟨d, p2, rfl⟩
    by_cases hc : isPyWS c = true
    · have hbody : containsSub (collapseWS true rest) (d :: p2) = true := by
        cases b with
        | true => rw [collapseWS_ws_true c rest hc] at h; exact h
        | false =>
          rw [collapseWS_ws_false c rest hc, containsSub_cons] at h
          rcases Bool.or_eq_true_iff.mp h with hpre | hsub
          · have hd : (d = ' ') ∧ isPre p2 (collapseWS true rest) = true := by
              simpa [isPre] using hpre
            have hdws := hws d (by simp)
            rw [hd.1] at hdws
            exact absurd hdws (by decide)
          · exact hsub
      exact (containsSub_cons c rest _).symm ▸
        Bool.or_eq_true_iff.mpr (Or.inr (ih true hbody))
    · rw [collapseWS_nws b c rest hc, containsSub_cons] at h
      rcases Bool.or_eq_true_iff.mp h with hpre | hsub
      · have hsplit : (d = c) ∧ isPre p2 (collapseWS false rest) = true := by
          simpa [isPre] using hpre
        have hp2 := isPre_collapseWS p2 (fun x hx => hws x (by simp [hx]))
          rest hsplit.2
        rw [containsSub_cons]
        refine Bool.or_eq_true_iff.mpr (Or.inl ?_)
        simp [isPre, hsplit.1, hp2]
      · rw [containsSub_cons]
        exact Bool.or_eq_true_iff.mpr (Or.inr (ih false hsub))

/-- `strip` only removes material at the ends. -/
theorem pyStrip_infix (l : PyStr) : ∃ u v, l = u ++ pyStrip l ++ v := by
  refine ⟨l.takeWhile isPyWS,
    ((l.dropWhile isPyWS).reverse.takeWhile isPyWS).reverse, ?_⟩
  have h2 : l.dropWhile isPyWS = pyStrip l ++
      ((l.dropWhile isPyWS).reverse.takeWhile isPyWS).reverse := by
    rw [pyStrip]
    conv_rhs => rw [← List.reverse_append,
      List.takeWhile_append_dropWhile, List.reverse_reverse]
  conv_lhs => rw [← List.takeWhile_append_dropWhile isPyWS l, h2]
  rw [List.append_assoc]

theorem containsSub_of_contains_infix (l x pat : PyStr) (u v : PyStr)
    (hl : l = u ++ x ++ v) (h : containsSub x pat = true) :
    containsSub l pat = true := by
  rcases (containsSub_iff x pat).mp h with ⟨pre, post, rfl⟩
  refine (containsSub_iff l pat).mpr ⟨u ++ pre, post ++ v, ?_⟩
  rw [hl]
  simp

/-- A whitespace-free pattern contained in `normalize_text t` is contained
in `t` itself. -/
theorem containsSub_normalize (t pat : PyStr) (hne : pat ≠ [])
    (hws : ∀ c ∈ pat, isPyWS c = false)
    (h : containsSub (normalize_text t) pat = true) :
    containsSub t pat = true := by
  rw [normalize_text, replaceNbsp_collapseWS] at h
  rcases pyStrip_infix (collapseWS false t) with ⟨u, v, hl⟩
  have h2 : containsSub (collapseWS false t) pat = true :=
    containsSub_of_contains_infix _ _ _ u v hl h
  exact containsSub_collapseWS pat hne hws t false h2

/-- The parts produced by `splitAfterTerm` concatenate back to the input. -/
theorem splitAfterTerm_flatten :
    ∀ (l cur : PyStr), (splitAfterTerm cur l).flatten = cur.reverse ++ l := by
  intro l
  induction l with
  | nil => intro cur; simp [splitAfterTerm]
  | cons c rest ih =>
    intro cur
    rw [splitAfterTerm]
    by_cases hc : isTerm c = true
    · rw [if_pos hc]
      simp [ih]
    · rw [if_neg hc]
      rw [ih (c :: cur)]
      simp

/-- Every sentence of `split_sentences s` is contained in `s` (it is a
stripped infix of one part). -/
theorem sentence_contains (s sent pat : PyStr)
    (hmem : sent ∈ split_sentences s)
    (h : containsSub sent pat = true) : containsSub s pat = true := by
  rw [split_sentences] at hmem
  have hmem2 := List.mem_of_mem_filter hmem
  rcases List.mem_map.mp hmem2 with ⟨part, hpart, rfl⟩
  rcases pyStrip_infix part with ⟨u, v, hl⟩
  have hpartsub : containsSub part pat = true :=
    containsSub_of_contains_infix _ _ _ u v hl h
  have hinfix : part <:+: (splitAfterTerm [] s).flatten :=
    List.infix_of_mem_flatten hpart
  rw [splitAfterTerm_flatten s []] at hinfix
  rcases hinfix with ⟨u', v', hflat⟩
  refine containsSub_of_contains_infix s part pat u' v' ?_ hpartsub
  simp only [List.reverse_nil, List.nil_append] at hflat
  exact hflat.symm

/-- Digit runs found by `numberRuns` are non-empty all-digit substrings of
the scanned string. -/
theorem numberRuns_spec :
    ∀ (l cur : PyStr), (∀ c ∈ cur, isDig c = true) →
      ∀ r ∈ numberRuns cur l,
        r ≠ [] ∧ (∀ c ∈ r, isDig c = true) ∧
          containsSub (cur.reverse ++ l) r = true := by
  intro l
  induction l with
  | nil =>
    intro cur hcur r hr
    rw [numberRuns] at hr
    by_cases hc : cur = []
    · rw [if_pos hc] at hr
      exact absurd hr (by simp)
    · rw [if_neg hc] at hr
      simp only [List.mem_singleton] at hr
      subst hr
      refine ⟨by simpa using hc, ?_, ?_⟩
      · intro c hc'
        exact hcur c (by simpa using hc')
      · exact (containsSub_iff _ _).mpr ⟨[], [], by simp⟩
  | cons c rest ih =>
    intro cur hcur r hr
    rw [numberRuns] at hr
    by_cases hc : isDig c = true
    · rw [if_pos hc] at hr
      have := ih (c :: cur) (by
        intro x hx
        rcases List.mem_cons.mp hx with rfl | hx'
        · exact hc
        · exact hcur x hx') r hr
      refine ⟨this.1, this.2.1, ?_⟩
      have h3 := this.2.2
      simpa using h3
    · rw [if_neg hc] at hr
      by_cases hcur0 : cur = []
      · rw [if_pos hcur0] at hr
        have := ih [] (by simp) r hr
        refine ⟨this.1, this.2.1, ?_⟩
        have h3 := this.2.2
        rw [hcur0]
        simp only [List.reverse_nil, List.nil_append] at h3 ⊢
        exact containsSub_of_contains_infix _ _ _ [c] [] (by simp) h3
      · rw [if_neg hcur0] at hr
        rcases List.mem_cons.mp hr with rfl | hr'
        · refine ⟨by simpa using hcur0, ?_, ?_⟩
          · intro x hx
            exact hcur x (by simpa using hx)
          · exact (containsSub_iff _ _).mpr ⟨[], c :: rest, by simp⟩
        · have := ih [] (by simp) r hr'
          refine ⟨this.1, this.2.1, ?_⟩
          have h3 := this.2.2
          simp only [List.reverse_nil, List.nil_append] at h3
          exact containsSub_of_contains_infix _ _ _ (cur.reverse ++ [c]) []
            (by simp) h3

/-- Digits are not whitespace. -/
theorem isDig_not_ws (c : Char) (h : isDig c = true) : isPyWS c = false := by
  by_contra hws
  have h2 : isPyWS c = true := by
    cases h3 : isPyWS c
    · exact absurd h3 hws
    · rfl
  have hmem : c ∈ pyWsChars := by simpa [isPyWS] using h2
  fin_cases hmem <;> exact absurd h (by decide)

theorem isPre_take (m s : PyStr) (h : isPre m s = true) :
    m = s.take m.length := by
  rcases (isPre_iff m s).mp h with ⟨t, rfl⟩
  rw [List.take_left]

theorem containsSub_of_take_drop (X m : PyStr) (k : Nat)
    (h : m = (X.drop k).take m.length) : containsSub X m = true := by
  refine (containsSub_iff X m).mpr ⟨X.take k, (X.drop k).drop m.length, ?_⟩
  conv_lhs => rw [← List.take_append_drop k X]
  conv_lhs => rw [← List.take_append_drop m.length (X.drop k)]
  rw [← h, List.append_assoc]

/-- Any occurrence of a border-free pattern in `pre ++ m ++ post`, with `m`
absent from `pre` and `post`, is the inserted one. -/
theorem occ_at_eq (pre m post : PyStr) (hm : m ≠ [])
    (hnb : ∀ t, 0 < t → t < m.length → ¬ m.drop t = m.take (m.length - t))
    (hpre : containsSub pre m = false)
    (hpost : containsSub post m = false)
    (p : Nat) (hp : isPre m ((pre ++ m ++ post).drop p) = true) :
    p = pre.length := by
  have hmp : m = ((pre ++ m ++ post).drop p).take m.length := isPre_take _ _ hp
  rw [List.append_assoc] at hmp
  rw [List.drop_append_eq_append_drop] at hmp
  by_cases hlt : p < pre.length
  · exfalso
    rw [List.take_append_eq_append_take] at hmp
    have hdlen : (pre.drop p).length = pre.length - p := by
      rw [List.length_drop]
    by_cases hsmall : m.length ≤ pre.length - p
    · have hz : m.length - (pre.drop p).length = 0 := by
        rw [hdlen]; omega
      rw [hz] at hmp
      simp only [List.take_zero, List.append_nil] at hmp
      exact absurd (containsSub_of_take_drop pre m p hmp) (by rw [hpre]; simp)
    · push_neg at hsmall
      have ht0pos : 0 < pre.length - p := by omega
      have htk1 : (pre.drop p).take m.length = pre.drop p := by
        apply List.take_of_length_le
        omega
      have hdrop0 : (m ++ post).drop (p - pre.length) = m ++ post := by
        rw [show p - pre.length = 0 by omega]
        rfl
      have htk2 : (m ++ post).take (m.length - (pre.drop p).length) =
          m.take (m.length - (pre.length - p)) := by
        rw [hdlen]
        exact List.take_append_of_le_length (by omega)
      rw [htk1, hdrop0, htk2] at hmp
      have hborder : m.drop (pre.length - p) =
          m.take (m.length - (pre.length - p)) := by
        have h5 := congrArg (fun l => List.drop (pre.length - p) l) hmp
        simp only at h5
        rw [List.drop_left' (by rw [hdlen])] at h5
        exact h5
      exact hnb (pre.length - p) ht0pos hsmall hborder
  · push_neg at hlt
    by_cases heq : p = pre.length
    · exact heq
    exfalso
    have hgt : pre.length < p := by omega
    have hjpos : 0 < p - pre.length := by omega
    have hdroppre : pre.drop p = [] := by
      rw [List.drop_eq_nil_iff]
      omega
    rw [hdroppre, List.nil_append] at hmp
    rw [List.drop_append_eq_append_drop] at hmp
    by_cases hjm : p - pre.length < m.length
    · have hdj : (m.drop (p - pre.length)).length =
          m.length - (p - pre.length) := by
        rw [List.length_drop]
      have hdropp : post.drop (p - pre.length - m.length) = post := by
        rw [show p - pre.length - m.length = 0 by omega]
        rfl
      rw [hdropp, List.take_append_eq_append_take] at hmp
      have htk1 : (m.drop (p - pre.length)).take m.length =
          m.drop (p - pre.length) := by
        apply List.take_of_length_le
        omega
      rw [htk1, hdj] at hmp
      have hborder : m.drop (p - pre.length) =
          m.take (m.length - (p - pre.length)) := by
        have h5 := congrArg
          (fun l => List.take (m.length - (p - pre.length)) l) hmp
        simp only at h5
        rw [List.take_left' hdj] at h5
        exact h5.symm
      exact hnb (p - pre.length) hjpos hjm hborder
    · push_neg at hjm
      have hdropm : m.drop (p - pre.length) = [] := by
        rw [List.drop_eq_nil_iff]
        omega
      rw [hdropm, List.nil_append] at hmp
      exact absurd
        (containsSub_of_take_drop post m (p - pre.length - m.length) hmp)
        (by rw [hpost]; simp)

/-- Inserting a border-free pattern into a clean context yields exactly one
occurrence. -/
theorem countOcc_insert (pre m post : PyStr) (hm : m ≠ [])
    (hnb : ∀ t, 0 < t → t < m.length → ¬ m.drop t = m.take (m.length - t))
    (hpre : containsSub pre m = false)
    (hpost : containsSub post m = false) :
    countOcc (pre ++ m ++ post) m = 1 := by
  rw [countOcc]
  have hNlen : pre.length < (pre ++ m ++ post).length + 1 := by
    simp only [List.length_append]
    omega
  have hcongr : ∀ x ∈ List.range ((pre ++ m ++ post).length + 1),
      ((fun p => isPre m ((pre ++ m ++ post).drop p)) x = true ↔
        (x == pre.length) = true) := by
    intro x _
    constructor
    · intro hx
      simpa using occ_at_eq pre m post hm hnb hpre hpost x hx
    · intro hx
      have hx' : x = pre.length := by simpa using hx
      subst hx'
      show isPre m ((pre ++ m ++ post).drop pre.length) = true
      rw [List.append_assoc, List.drop_left]
      exact isPre_append m post
  rw [List.countP_congr hcongr]
  have : (List.range ((pre ++ m ++ post).length + 1)).countP
      (fun x => x == pre.length) =
      (List.range ((pre ++ m ++ post).length + 1)).count pre.length := rfl
  rw [this]
  exact List.count_eq_one_of_mem (List.nodup_range _)
    (List.mem_range.mpr hNlen)

/-- The blank marker is non-empty, whitespace-free and has no non-trivial
border (no proper prefix of it is also a suffix). -/
theorem fbMarker_facts :
    fbMarker ≠ [] ∧ (∀ c ∈ fbMarker, isPyWS c = false) ∧
      (∀ t, 0 < t → t < fbMarker.length →
        ¬ fbMarker.drop t = fbMarker.take (fbMarker.length - t)) := by
  refine ⟨by decide, by decide, ?_⟩
  intro t ht1 ht2
  have hlen : fbMarker.length = 17 := by decide
  rw [hlen] at ht2
  interval_cases t <;> decide

/-- Every term of the entity bundle occurs in the normalized text, is
non-empty and whitespace-free. -/
theorem terms_spec (text : PyStr) :
    ∀ t ∈ (extract_entities text).terms,
      t ≠ [] ∧ (∀ c ∈ t, isPyWS c = false) ∧
        containsSub (normalize_text text) t = true := by
  intro t ht
  have hterms : (extract_entities text).terms =
      KEY_TERMS.filter (fun s => containsSub (normalize_text text) s) := rfl
  rw [hterms] at ht
  have hkt : t ∈ KEY_TERMS := List.mem_of_mem_filter ht
  have hcs : containsSub (normalize_text text) t = true := by
    have := List.of_mem_filter ht
    simpa using this
  refine ⟨?_, ?_, hcs⟩
  · fin_cases hkt <;> decide
  · fin_cases hkt <;> decide

/-- Every number of the entity bundle occurs in the normalized text, is
non-empty and whitespace-free. -/
theorem numbers_spec (text : PyStr) :
    ∀ t ∈ (extract_entities text).numbers,
      t ≠ [] ∧ (∀ c ∈ t, isPyWS c = false) ∧
        containsSub (normalize_text text) t = true := by
  intro t ht
  have hnum : (extract_entities text).numbers =
      numberRuns [] (normalize_text text) := rfl
  rw [hnum] at ht
  have := numberRuns_spec (normalize_text text) [] (by simp) t ht
  refine ⟨this.1, ?_, by simpa using this.2.2⟩
  intro c hc
  exact isDig_not_ws c (this.2.1 c hc)

/-- The target candidates of `make_fill_blank` (terms and numbers) occur
verbatim in the raw article text, are non-empty and whitespace-free. -/
theorem fb_candidates_spec (text : PyStr) :
    ∀ t ∈ (extract_entities text).terms ++ (extract_entities text).numbers,
      t ≠ [] ∧ (∀ c ∈ t, isPyWS c = false) ∧
        containsSub text t = true := by
  intro t ht
  have hspec : t ≠ [] ∧ (∀ c ∈ t, isPyWS c = false) ∧
      containsSub (normalize_text text) t = true := by
    rcases List.mem_append.mp ht with h | h
    · exact terms_spec text t h
    · exact numbers_spec text t h
  exact ⟨hspec.1, hspec.2.1,
    containsSub_normalize text t hspec.1 hspec.2.1 hspec.2.2⟩

/-- If the raw article text does not contain the marker, neither does any
of its sentences. -/
theorem sentence_no_marker (text sent : PyStr)
    (hclean : containsSub text fbMarker = false)
    (hmem : sent ∈ (extract_entities text).sentences) :
    containsSub sent fbMarker = false := by
  have hs : (extract_entities text).sentences =
      split_sentences (normalize_text text) := rfl
  rw [hs] at hmem
  cases hc : containsSub sent fbMarker with
  | false => rfl
  | true =>
    exfalso
    have h1 : containsSub (normalize_text text) fbMarker = true :=
      sentence_contains (normalize_text text) sent fbMarker hmem hc
    have h2 := containsSub_normalize text fbMarker fbMarker_facts.1
      fbMarker_facts.2.1 h1
    rw [hclean] at h2
    exact absurd h2 (by simp)

/-- Validity of one fill-blank question relative to its source article: the
marker occurs exactly once, the recorded answer was removed from the first
occurrence inside a span that contained it verbatim, and that span is a
sentence of the article or its full text. -/
def fbValidArt (a : Article) (q : Question) : Prop :=
  ∃ t pre post,
    q.answer = PyAnswer.s t ∧
    q.question = pre ++ fbMarker ++ post ∧
    firstOccSplit (pre ++ t ++ post) t = some (pre, post) ∧
    countOcc q.question fbMarker = 1 ∧
    (pre ++ t ++ post ∈ (extract_entities a.text).sentences ∨
      pre ++ t ++ post = a.text)

theorem fbGo_inv (count : Nat) (artsAll : List Article) :
    ∀ (arts : List Article) (res : List Question) (st : RSt),
      (∀ a ∈ arts, a ∈ artsAll ∧ containsSub a.text fbMarker = false) →
      (∀ q ∈ res, ∃ a, a ∈ artsAll ∧ fbValidArt a q) →
      ∀ q ∈ (fbGo count arts (res, st)).1,
        ∃ a, a ∈ artsAll ∧ fbValidArt a q := by
  intro arts
  induction arts with
  | nil => intro res st _ h q hq; exact h q hq
  | cons art arts' ih =>
    intro res st hsub h q hq
    have hart := hsub art (by simp)
    rw [fbGo] at hq
    by_cases hcnt : count ≤ res.length
    · rw [if_pos hcnt] at hq
      exact h q hq
    · rw [if_neg hcnt] at hq
      by_cases hcand : (extract_entities art.text).terms ++
          (extract_entities art.text).numbers = []
      · rw [if_pos hcand] at hq
        exact ih res st (fun a ha => hsub a (by simp [ha])) h q hq
      · rw [if_neg hcand] at hq
        set e := extract_entities art.text with he
        set candidates := e.terms ++ e.numbers with hcands
        set target := (pyChoice candidates st).1 with htarget
        set st1 := (pyChoice candidates st).2 with hst1
        set sent0 := if e.sentences ≠ [] then (pyChoice e.sentences st1).1
          else art.text with hsent0
        set st2 := if e.sentences ≠ [] then (pyChoice e.sentences st1).2
          else st1 with hst2
        set sent := if ¬ containsSub sent0 target then art.text else sent0
          with hsent
        refine ih _ _ (fun a ha => hsub a (by simp [ha])) ?_ q hq
        intro q' hq'
        rcases List.mem_append.mp hq' with hq'' | hq''
        · exact h q' hq''
        · simp only [List.mem_singleton] at hq''
          subst hq''
          refine ⟨art, hart.1, ?_⟩
          have htmem : target ∈ candidates := pyChoice_mem candidates st hcand
          have htspec := fb_candidates_spec art.text target htmem
          have hsentsrc : sent ∈ e.sentences ∨ sent = art.text := by
            rw [hsent]
            by_cases hc : containsSub sent0 target = true
            · rw [if_neg (fun hcon => hcon hc), hsent0]
              by_cases hs : e.sentences = []
              · rw [if_neg (not_not_intro hs)]
                exact Or.inr rfl
              · rw [if_pos hs]
                exact Or.inl (pyChoice_mem e.sentences st1 hs)
            · rw [if_pos hc]
              exact Or.inr rfl
          have hsentcontains : containsSub sent target = true := by
            rw [hsent]
            by_cases hc : containsSub sent0 target = true
            · rw [if_neg (fun hcon => hcon hc)]
              exact hc
            · rw [if_pos hc]
              exact htspec.2.2
          have hsentclean : containsSub sent fbMarker = false := by
            rcases hsentsrc with hs | hs
            · exact sentence_no_marker art.text sent hart.2 hs
            · rw [hs]
              exact hart.2
          rcases firstOccSplit_isSome_of_contains sent target hsentcontains
            with ⟨pre, post, hfs⟩
          have hsound : sent = pre ++ target ++ post :=
            firstOccSplit_sound sent target pre post hfs
          have hblank : replaceFirst sent target fbMarker =
              pre ++ fbMarker ++ post := by
            rw [replaceFirst, hfs]
          have hprec : containsSub pre fbMarker = false := by
            cases hcp : containsSub pre fbMarker with
            | false => rfl
            | true =>
              exfalso
              have := containsSub_of_contains_infix sent pre fbMarker
                [] (target ++ post) (by rw [hsound]; simp) hcp
              rw [hsentclean] at this
              exact absurd this (by simp)
          have hpostc : containsSub post fbMarker = false := by
            cases hcp : containsSub post fbMarker with
            | false => rfl
            | true =>
              exfalso
              have := containsSub_of_contains_infix sent post fbMarker
                (pre ++ target) [] (by rw [hsound]; simp) hcp
              rw [hsentclean] at this
              exact absurd this (by simp)
          refine ⟨target, pre, post, rfl, hblank, ?_, ?_, ?_⟩
          · rw [← hsound]
            exact hfs
          · rw [hblank]
            exact countOcc_insert pre fbMarker post fbMarker_facts.1
              fbMarker_facts.2.2 hprec hpostc
          · rw [← hsound]
            exact hsentsrc

/-- C6 as amended — provided no article text already contains the blank
marker, every fill-blank question has the marker exactly once in its text,
its recorded answer occurred verbatim in the blanked span (first occurrence
replaced), and the span is a sentence of the source article or its full
text (the full text is used whenever the drawn sentence lacks the
target). -/
theorem make_fill_blank_amended (arts : List Article) (count : Nat)
    (st : RSt)
    (hclean : ∀ a ∈ arts, containsSub a.text fbMarker = false) :
    ∀ q ∈ (make_fill_blank arts count st).1,
      ∃ a, a ∈ arts ∧ fbValidArt a q :=
  fbGo_inv count arts arts [] st (fun a ha => ⟨ha, hclean a ha⟩) (by simp)

/-- Witness for `make_fill_blank_amended` at a concrete marker-free
article. -/
theorem make_fill_blank_amended_witness :
    ∃ a, a ∈ [artC4] ∧ fbValidArt a
      ((make_fill_blank [artC4] 1 [0, 0]).1.headD default) :=
  make_fill_blank_amended [artC4] 1 [0, 0] (by decide)
    ((make_fill_blank [artC4] 1 [0, 0]).1.headD default) (by decide)

/-- An article whose raw text already contains the blank marker. -/
def artC6 : Article :=
  ⟨strToP "f1", strToP "第2条", [],
    strToP "第2条" ++ fbMarker ++ strToP "应当遵守法律。", []⟩

/-- C6 counterexample — on an article whose text already contains the
literal marker string, the emitted fill-blank question contains the marker
twice, so "the blank marker appears exactly once in question_text" fails as
an unconditional statement. -/
theorem make_fill_blank_marker_counterexample :
    countOcc ((make_fill_blank [artC6] 1 [0, 0]).1.headD default).question
      fbMarker = 2 ∧ (2 : Nat) ≠ 1 := by
  constructor
  · decide
  · decide
